import Mathlib

/-!
# Commit-log registry (`src/tightdb/commit_log.cpp`)

Shallow embedding of `WriteLogRegistry`, of the directory `RegistryRegistry` and of
the producer `WriteLogCollector`, and of the checks the specification makes about
them.

Conventions of the embedding

* `version_type` (`uint_fast64_t`) and `std::size_t` are 64-bit unsigned words:
  they are natural numbers, and every arithmetic operation the source performs
  on them is written with an explicit reduction modulo `2 ^ 64`
  (`wadd`, `wsub`).
* Interest slot ids (`int` in the source) are integers; `-1` and `-2` keep
  their sentinel roles.  The table is assumed to hold fewer than `2 ^ 31`
  slots, so the `int` / `unsigned int` / `size_t` conversions of
  slot ids are value preserving and are not written out.
* A `char*` buffer is `Option Buffer`: `none` is the null pointer, `some b`
  a pointer to the bytes `b`.  `delete[]` has no effect on the modelled state.
* An element access outside a vector, a failed `TIGHTDB_ASSERT` and a loop that
  does not come to an end are faults: every operation returns
  `Except Fault _`.
* The mutex is not modelled: each operation runs atomically.
* A `WriteLogRegistry*` held by the directory is the index of its object among the
  stores allocated so far.  The cursors of the producer are distances from the start
  of its buffer.
-/

namespace tightdb

/-- Modulus of 64-bit unsigned arithmetic. -/
abbrev U64 : Nat := 18446744073709551616

/-- Unsigned 64-bit addition. -/
def wadd (a b : Nat) : Nat := (a + b) % U64

/-- Unsigned 64-bit subtraction. -/
def wsub (a b : Nat) : Nat := (a % U64 + (U64 - b % U64)) % U64

/-- Ways in which an operation can fail to produce a defined result. -/
inductive Fault where
  /-- a `TIGHTDB_ASSERT` was violated -/
  | assertion
  /-- an element outside a vector was read or written -/
  | out_of_bounds
  /-- a loop did not come to an end -/
  | diverged
deriving DecidableEq

deriving instance DecidableEq for Except

/-- Bytes behind a `char*`. -/
abbrev Buffer := List Nat

/-- The view `BinaryData(data, size)` handed out by `get_commit_entries`. -/
abbrev BinaryData := Option Buffer × Nat

/-- The struct `CommitEntry { std::size_t sz; char* data; }`. -/
structure CommitEntry where
  sz : Nat
  data : Option Buffer
deriving DecidableEq

/-- The struct `Interest`: `next_free_entry` is the free-list link, terminated by `-1`,
and `-2` marks a slot that is in use. -/
structure Interest where
  last_seen_version : Nat
  next_free_entry : Int
deriving DecidableEq

/-- Data members of `class WriteLogRegistry` (the mutex left out). -/
structure WriteLogRegistry where
  m_commits : List CommitEntry
  m_array_start : Nat
  m_oldest_version : Nat
  m_interests : List Interest
  m_interest_free_list : Int
  m_laziest_reader : Int
deriving DecidableEq

/-- Modelled from the spec: the macro `TIGHTDB_ASSERT` is not defined in the given
sources; the specification calls its failure a fatal assertion, so a false condition is
the fault `Fault.assertion`. -/
def TIGHTDB_ASSERT (c : Bool) : Except Fault Unit :=
  if c then .ok () else .error .assertion

/-- Read `v[i]` for a signed index: a negative index is outside the vector. -/
def at_int {α : Type} (v : List α) (i : Int) : Option α :=
  if 0 ≤ i then v[i.toNat]? else none

/-- The constructor `WriteLogRegistry::WriteLogRegistry()`. -/
def WriteLogRegistry.init : WriteLogRegistry :=
  { m_commits := []
    m_array_start := 0
    m_oldest_version := 0
    m_interests := []
    m_interest_free_list := -1
    m_laziest_reader := -1 }

/-- `to_index(version) = version - m_array_start`. -/
def to_index (s : WriteLogRegistry) (version : Nat) : Nat :=
  wsub version s.m_array_start

/-- `to_version(idx) = idx + m_array_start`. -/
def to_version (s : WriteLogRegistry) (idx : Nat) : Nat :=
  wadd idx s.m_array_start

/-- `newest_version() = to_version(m_commits.size() + to_index(m_oldest_version) - 1)`. -/
def newest_version (s : WriteLogRegistry) : Nat :=
  to_version s (wsub (wadd s.m_commits.length (to_index s s.m_oldest_version)) 1)

/-- `is_a_known_commit(version)`. -/
def is_a_known_commit (s : WriteLogRegistry) (version : Nat) : Bool :=
  decide (version ≥ s.m_oldest_version ∧ version ≤ newest_version s)

/-- `is_interesting(version)`. -/
def is_interesting (s : WriteLogRegistry) (version : Nat) : Except Fault Bool :=
  if s.m_laziest_reader = -1 then .ok false
  else
    match at_int s.m_interests s.m_laziest_reader with
    | none => .error .out_of_bounds
    | some i => if version > i.last_seen_version then .ok true else .ok false

/-- `add_commit(version, data, sz)`. -/
def add_commit (s : WriteLogRegistry) (version : Nat) (data : Option Buffer) (sz : Nat) :
    Except Fault WriteLogRegistry :=
  match is_interesting s version with
  | .error f => .error f
  | .ok false => .ok s
  | .ok true =>
    match TIGHTDB_ASSERT
        (decide (s.m_oldest_version = 0 ∨ version = wadd 1 (newest_version s))) with
    | .error f => .error f
    | .ok _ =>
      let s1 :=
        if s.m_oldest_version = 0 then
          { s with m_array_start := version, m_oldest_version := version }
        else s
      .ok { s1 with m_commits := s1.m_commits ++ [({ sz := sz, data := data } : CommitEntry)] }

/-- `register_interest()`: the new state and the returned id.  The two writes to
`m_interests[retval]` (`last_seen_version = 0`, then `next_free_entry = -2`) are one
update, and so are the `push_back` and the write to the new slot. -/
def register_interest (s : WriteLogRegistry) : Except Fault (WriteLogRegistry × Int) :=
  if s.m_interest_free_list ≠ -1 then
    let retval := s.m_interest_free_list
    match at_int s.m_interests s.m_interest_free_list with
    | none => .error .out_of_bounds
    | some head =>
      .ok ({ s with
              m_interest_free_list := head.next_free_entry
              m_interests := s.m_interests.set retval.toNat
                ({ last_seen_version := 0, next_free_entry := -2 } : Interest)
              m_laziest_reader := retval }, retval)
  else
    let retval : Int := ((s.m_interests.length + 1 : Nat) : Int) - 1
    .ok ({ s with
            m_interests := s.m_interests ++
              [({ last_seen_version := 0, next_free_entry := -2 } : Interest)]
            m_laziest_reader := retval }, retval)

/-- The scan of `cleanup` over the interest table, `i` being the index of the head of the
remaining slots: returns `(m_laziest_reader, earliest)`. -/
def cleanup_scan : List Interest → Nat → Int → Nat → Int × Nat
  | [], _, laziest, earliest => (laziest, earliest)
  | x :: rest, i, laziest, earliest =>
    if x.next_free_entry = -2 ∧ x.last_seen_version < earliest then
      cleanup_scan rest (i + 1) (i : Int) x.last_seen_version
    else
      cleanup_scan rest (i + 1) laziest earliest

/-- The freeing loop of `cleanup`,
`for (version = m_oldest_version; version <= last_to_clean; version++)`, on the commit
array whose index 0 stands for version `start`. -/
def cleanup_free (start : Nat) : Nat → Nat → Nat → List CommitEntry →
    Except Fault (List CommitEntry)
  | 0, _, _, _ => .error .diverged
  | fuel + 1, version, last_to_clean, commits =>
    if version ≤ last_to_clean then
      let idx := wsub version start
      if idx < commits.length then
        cleanup_free start fuel (wadd version 1) last_to_clean
          (commits.set idx ({ sz := 0, data := none } : CommitEntry))
      else .error .out_of_bounds
    else .ok commits

/-- The call `std::copy(first, last, dest)` on positions of one vector:
`while (first != last) *dest++ = *first++;`.  The position `commits.size()` lies one past
the end of the vector: `past_end` says what a read there yields, `none` when it is the
fault it is by the rules of the language, `some e` when the stray read is let through
and finds `e`. -/
def copy_loop (past_end : Option CommitEntry) :
    Nat → Nat → Nat → Nat → List CommitEntry → Except Fault (List CommitEntry)
  | 0, _, _, _, _ => .error .diverged
  | fuel + 1, first, last, dest, commits =>
    if first ≠ last then
      match (if first = commits.length then past_end else commits[first]?) with
      | none => .error .out_of_bounds
      | some e =>
        if dest < commits.length then
          copy_loop past_end fuel (first + 1) last (dest + 1) (commits.set dest e)
        else .error .out_of_bounds
    else .ok commits

/-- The call `std::vector::resize(n)`: new elements are value-initialised. -/
def resize (commits : List CommitEntry) (n : Nat) : List CommitEntry :=
  commits.take n ++ List.replicate (n - commits.length) { sz := 0, data := none }

/-- `cleanup()`, given what a read one past the end of `m_commits` yields
(see `copy_loop`). -/
def cleanup_with (past_end : Option CommitEntry) (s : WriteLogRegistry) :
    Except Fault WriteLogRegistry :=
  let scan := cleanup_scan s.m_interests 0 (-1) (wadd (newest_version s) 1)
  let earliest := scan.2
  let s1 := { s with m_laziest_reader := scan.1 }
  if s1.m_oldest_version = 0 then .ok s1
  else
    let last_to_clean := if s1.m_laziest_reader = -1 then newest_version s1 else earliest
    match cleanup_free s1.m_array_start (s1.m_commits.length + 1) s1.m_oldest_version
        last_to_clean s1.m_commits with
    | .error f => .error f
    | .ok freed =>
      let s2 := { s1 with m_commits := freed }
      if s2.m_laziest_reader = -1 ∨ last_to_clean = newest_version s2 then
        .ok { s2 with m_oldest_version := 0, m_array_start := 0, m_commits := [] }
      else
        let s3 := { s2 with m_oldest_version := wadd last_to_clean 1 }
        if to_index s3 s3.m_oldest_version > s3.m_commits.length / 2 then
          let copy_start_idx := to_index s3 s3.m_oldest_version
          match copy_loop past_end (s3.m_commits.length + 2) copy_start_idx
              (s3.m_commits.length + 1) 0 s3.m_commits with
          | .error f => .error f
          | .ok moved =>
            .ok { s3 with
              m_commits := resize moved (wadd (wsub moved.length copy_start_idx) 1)
              m_array_start := s3.m_oldest_version }
        else .ok s3

/-- `cleanup()`: every access outside the vector is a fault. -/
def cleanup (s : WriteLogRegistry) : Except Fault WriteLogRegistry :=
  cleanup_with none s

/-- `unregister_interest(interest_registration_id)`, given what a read one past the end
of `m_commits` yields. -/
def unregister_interest_with (past_end : Option CommitEntry) (s : WriteLogRegistry)
    (id : Int) : Except Fault WriteLogRegistry :=
  match at_int s.m_interests id with
  | none => .error .out_of_bounds
  | some slot =>
    let s1 := { s with
      m_interests := s.m_interests.set id.toNat
        ({ slot with next_free_entry := s.m_interest_free_list } : Interest) }
    let s2 := { s1 with m_interest_free_list := id }
    if id = s2.m_laziest_reader then cleanup_with past_end s2 else .ok s2

/-- `unregister_interest(interest_registration_id)`. -/
def unregister_interest (s : WriteLogRegistry) (id : Int) : Except Fault WriteLogRegistry :=
  unregister_interest_with none s id

/-- The loop of `get_commit_entries`; `out` is what has been written to `commits[0 ..]`. -/
def get_commit_entries_loop (s : WriteLogRegistry) : Nat → Nat → Nat → List BinaryData →
    Except Fault (List BinaryData)
  | 0, _, _, _ => .error .diverged
  | fuel + 1, version, to_v, out =>
    if version ≤ to_v then
      match is_interesting s version with
      | .error f => .error f
      | .ok false => .error .assertion
      | .ok true =>
        match TIGHTDB_ASSERT (is_a_known_commit s version) with
        | .error f => .error f
        | .ok _ =>
          match s.m_commits[to_index s version]? with
          | none => .error .out_of_bounds
          | some entry =>
            get_commit_entries_loop s fuel (wadd version 1) to_v (out ++ [(entry.data, entry.sz)])
    else .ok out

/-- `get_commit_entries(from, to, commits)`: the views written to `commits`, in order. -/
def get_commit_entries (s : WriteLogRegistry) (from_v to_v : Nat) :
    Except Fault (List BinaryData) :=
  get_commit_entries_loop s (s.m_commits.length + 1) (wadd from_v 1) to_v []

/-- `release_commit_entries(interest_registration_id, to)`, given what a read one past
the end of `m_commits` yields. -/
def release_commit_entries_with (past_end : Option CommitEntry) (s : WriteLogRegistry)
    (id : Int) (to_v : Nat) : Except Fault WriteLogRegistry :=
  match at_int s.m_interests id with
  | none => .error .out_of_bounds
  | some slot =>
    let s1 := { s with
      m_interests := s.m_interests.set id.toNat
        ({ slot with last_seen_version := to_v } : Interest) }
    if id = s1.m_laziest_reader then cleanup_with past_end s1 else .ok s1

/-- `release_commit_entries(interest_registration_id, to)`. -/
def release_commit_entries (s : WriteLogRegistry) (id : Int) (to_v : Nat) :
    Except Fault WriteLogRegistry :=
  release_commit_entries_with none s id to_v

/-- The calls a client can make on a `WriteLogRegistry`. -/
inductive Call where
  | commit (version : Nat) (data : Option Buffer) (sz : Nat)
  | register
  | unregister (id : Int)
  | release (id : Int) (to_v : Nat)

/-- One call on the registry (the id returned by `register_interest` is dropped), given
what a read one past the end of `m_commits` yields. -/
def call_with (past_end : Option CommitEntry) (s : WriteLogRegistry) :
    Call → Except Fault WriteLogRegistry
  | .commit version data sz => add_commit s version data sz
  | .register =>
    match register_interest s with
    | .error f => .error f
    | .ok r => .ok r.1
  | .unregister id => unregister_interest_with past_end s id
  | .release id to_v => release_commit_entries_with past_end s id to_v

/-- A sequence of calls, stopping at the first fault. -/
def run_with (past_end : Option CommitEntry) :
    WriteLogRegistry → List Call → Except Fault WriteLogRegistry
  | s, [] => .ok s
  | s, c :: rest =>
    match call_with past_end s c with
    | .error f => .error f
    | .ok s1 => run_with past_end s1 rest

/-- A sequence of calls in which every access outside a vector is a fault. -/
def run (s : WriteLogRegistry) (calls : List Call) : Except Fault WriteLogRegistry :=
  run_with none s calls

/-- The entry `add_commit` stores for a submitted buffer. -/
def entry_of (b : BinaryData) : CommitEntry := { sz := b.2, data := b.1 }

/-- The calls `add_commit(v, d_0, s_0)`, `add_commit(v + 1, d_1, s_1)`, ... in order. -/
def add_commits : WriteLogRegistry → Nat → List BinaryData → Except Fault WriteLogRegistry
  | s, _, [] => .ok s
  | s, v, b :: rest =>
    match add_commit s v b.1 b.2 with
    | .error f => .error f
    | .ok s1 => add_commits s1 (v + 1) rest

/-- The store of one reader that has released nothing and for which the buffers `bufs`
are retained from version `v` on. -/
def single_reader_store (v : Nat) (bufs : List BinaryData) : WriteLogRegistry :=
  { m_commits := bufs.map entry_of
    m_array_start := v
    m_oldest_version := v
    m_interests := [{ last_seen_version := 0, next_free_entry := -2 }]
    m_interest_free_list := -1
    m_laziest_reader := 0 }

/-- The part of the invariant that speaks of the version window and the commit array
only; `last` is the version most recently submitted to `add_commit`, 0 before the first
submission. -/
structure Window (s : WriteLogRegistry) (last : Nat) : Prop where
  start_lt : s.m_array_start < U64
  oldest_lt : s.m_oldest_version < U64
  last_lt : last < U64
  seen_lt : ∀ (j : Nat) (x : Interest), s.m_interests[j]? = some x →
    x.last_seen_version < U64
  empty : s.m_oldest_version = 0 → s.m_commits = [] ∧ s.m_array_start = 0
  window : s.m_oldest_version ≠ 0 →
    s.m_commits ≠ [] ∧ 1 ≤ s.m_array_start ∧ s.m_array_start ≤ s.m_oldest_version
      ∧ s.m_oldest_version - s.m_array_start ≤ s.m_commits.length / 2
      ∧ last + 1 = s.m_array_start + s.m_commits.length
  top : last + 1 = U64 → s.m_oldest_version = s.m_array_start
  live_window : ∀ (i : Nat) (e : CommitEntry), s.m_commits[i]? = some e → e.data ≠ none →
    s.m_oldest_version ≤ s.m_array_start + i

/-- Invariant of the states reached without a fault. -/
structure Inv (s : WriteLogRegistry) (last : Nat) extends Window s last : Prop where
  none_empty : s.m_laziest_reader = -1 → s.m_commits = []
  laziest_used : s.m_laziest_reader ≠ -1 →
    ∃ x, at_int s.m_interests s.m_laziest_reader = some x ∧ x.next_free_entry = -2
  live_ahead : ∀ (i : Nat) (e : CommitEntry) (x : Interest), s.m_commits[i]? = some e →
    e.data ≠ none → at_int s.m_interests s.m_laziest_reader = some x →
    x.last_seen_version < s.m_array_start + i
  ahead : s.m_oldest_version ≠ 0 → ∀ x : Interest,
    at_int s.m_interests s.m_laziest_reader = some x →
    x.last_seen_version < s.m_array_start + s.m_commits.length

/-- States reached from a fresh registry by calls that return without a fault, the
commits carrying consecutive 64-bit versions (the first one any version from 1 on).  The
second component is the version most recently submitted to `add_commit` (0 before the
first one). -/
inductive Reachable : WriteLogRegistry → Nat → Prop where
  | init : Reachable .init 0
  | commit {s s1 : WriteLogRegistry} {last version : Nat} {data : Option Buffer} {sz : Nat} :
      Reachable s last → 1 ≤ version → version < U64 → (last = 0 ∨ version = last + 1) →
      add_commit s version data sz = .ok s1 → Reachable s1 version
  | register {s s1 : WriteLogRegistry} {last : Nat} {id : Int} :
      Reachable s last → register_interest s = .ok (s1, id) → Reachable s1 last
  | unregister {s s1 : WriteLogRegistry} {last : Nat} {id : Int} :
      Reachable s last → unregister_interest s id = .ok s1 → Reachable s1 last
  | release {s s1 : WriteLogRegistry} {last to_v : Nat} {id : Int} :
      Reachable s last → to_v < U64 → release_commit_entries s id to_v = .ok s1 →
      Reachable s1 last

/-! ## The directory of stores -/

/-- `RegistryRegistry`: `m_registries` is the `std::map<std::string, WriteLogRegistry*>`,
kept as an association list in which the first entry of a key is the one `find` sees.
A `WriteLogRegistry*` is the index of its object in the list of stores allocated by
`new`, which the operations below take and return next to the directory. -/
structure RegistryRegistry where
  m_registries : List (String × Nat)
  deriving DecidableEq

/-- `std::map::find`: the pointer stored under `key`, `none` for `end()`. -/
def map_find : List (String × Nat) → String → Option Nat
  | [], _ => none
  | (k, second) :: rest, key => if k = key then some second else map_find rest key

/-- `m[key] = value`: overwrite the entry of `key`, or insert one. -/
def map_assign : List (String × Nat) → String → Nat → List (String × Nat)
  | [], key, value => [(key, value)]
  | (k, second) :: rest, key, value =>
    if k = key then (k, value) :: rest else (k, second) :: map_assign rest key value

/-- `RegistryRegistry::get`: returns the pointer, the directory and the allocated stores. -/
def RegistryRegistry.get (r : RegistryRegistry) (heap : List WriteLogRegistry)
    (filepath : String) : Nat × RegistryRegistry × List WriteLogRegistry :=
  match map_find r.m_registries filepath with
  | some second => (second, r, heap)
  | none =>
    let result := heap.length
    (result, ⟨map_assign r.m_registries filepath result⟩, heap ++ [WriteLogRegistry.init])

/-- `RegistryRegistry::add`. -/
def RegistryRegistry.add (r : RegistryRegistry) (filepath : String) (registry : Nat) :
    RegistryRegistry :=
  ⟨map_assign r.m_registries filepath registry⟩

/-! ## The producer -/

/-- Modelled from the spec: `util::Buffer<char>` is not part of this repository.  The
specification describes one growable byte buffer whose storage is handed over on commit,
after which the buffer is in a fresh, empty-capacity state.  `m_data` is the storage
(`none` for no storage); `size()` is its length. -/
structure util_Buffer where
  m_data : Option Buffer
  deriving DecidableEq

/-- Modelled from the spec: `util::Buffer::size`. -/
def util_Buffer.size (b : util_Buffer) : Nat :=
  match b.m_data with
  | none => 0
  | some d => d.length

/-- Modelled from the spec: `util::Buffer::reserve_extra(used_size, min_extra_capacity)`
"grows the buffer in place if fewer than `n` bytes of spare capacity remain, preserving
already-appended bytes".  The growth policy is not fixed by the specification: the new
capacity is the larger of one and a half times the old one and what is asked for, and the
fresh bytes read as 0.  Allocation is taken to succeed. -/
def util_Buffer.reserve_extra (b : util_Buffer) (used_size min_extra_capacity : Nat) :
    util_Buffer :=
  let min_capacity := used_size + min_extra_capacity
  if min_capacity ≤ b.size then b
  else
    let new_capacity := max (b.size * 3 / 2) min_capacity
    ⟨some (((b.m_data.getD []).take used_size ++ List.replicate new_capacity 0).take
      new_capacity)⟩

/-- Modelled from the spec: `util::Buffer::release`, "the producer relinquishes it
entirely": returns the storage and leaves the buffer without storage. -/
def util_Buffer.release (b : util_Buffer) : Option Buffer × util_Buffer :=
  (b.m_data, ⟨none⟩)

/-- `WriteLogCollector`.  Modelled from the spec: the two cursors `m_transact_log_free_begin`
and `m_transact_log_free_end` are members of the base class `Replication`, which is not part
of this repository; they delimit the unused capacity.  A cursor is kept as its distance from
`m_transact_log_buffer.data()`.  The store `m_registry` points to is passed to
`do_commit_write_transact` and returned by it. -/
structure WriteLogCollector where
  m_database_name : String
  m_transact_log_buffer : util_Buffer
  m_transact_log_free_begin : Nat
  m_transact_log_free_end : Nat
  deriving DecidableEq

/-- `WriteLogCollector::do_begin_write_transact`. -/
def do_begin_write_transact (c : WriteLogCollector) : WriteLogCollector :=
  { c with
    m_transact_log_free_begin := 0
    m_transact_log_free_end := 0 + c.m_transact_log_buffer.size }

/-- `WriteLogCollector::transact_log_reserve`: `size` is `m_transact_log_free_begin - data`. -/
def transact_log_reserve (c : WriteLogCollector) (n : Nat) : WriteLogCollector :=
  let size := c.m_transact_log_free_begin
  let buffer := c.m_transact_log_buffer.reserve_extra size n
  { c with
    m_transact_log_buffer := buffer
    m_transact_log_free_begin := 0 + size
    m_transact_log_free_end := 0 + buffer.size }

/-- `std::copy(data, data+size, dest)` into the storage of `b`; writing outside the storage
is a fault.  Returns the buffer and the cursor behind the last byte written. -/
def std_copy (data : List Nat) (b : util_Buffer) (dest : Nat) :
    Except Fault (util_Buffer × Nat) :=
  match b.m_data with
  | none => if data = [] then .ok (b, dest) else .error .out_of_bounds
  | some d =>
    if dest + data.length ≤ d.length then
      .ok (⟨some (d.take dest ++ data ++ d.drop (dest + data.length))⟩, dest + data.length)
    else .error .out_of_bounds

/-- `WriteLogCollector::do_transact_log_append`. -/
def do_transact_log_append (c : WriteLogCollector) (data : List Nat) :
    Except Fault WriteLogCollector :=
  let c1 := transact_log_reserve c data.length
  match std_copy data c1.m_transact_log_buffer c1.m_transact_log_free_begin with
  | .error e => .error e
  | .ok (buffer, free_begin) =>
    .ok { c1 with m_transact_log_buffer := buffer, m_transact_log_free_begin := free_begin }

/-- `WriteLogCollector::do_commit_write_transact` on the store `reg` bound to the
collector: returns the collector, the store and `new_version`. -/
def do_commit_write_transact (c : WriteLogCollector) (reg : WriteLogRegistry)
    (orig_version : Nat) : Except Fault (WriteLogCollector × WriteLogRegistry × Nat) :=
  let (data, buffer) := c.m_transact_log_buffer.release
  let sz := c.m_transact_log_free_begin
  let new_version := wadd orig_version 1
  match add_commit reg new_version data sz with
  | .error e => .error e
  | .ok reg1 => .ok ({ c with m_transact_log_buffer := buffer }, reg1, new_version)

/-- `WriteLogCollector::do_rollback_write_transact`: "not used in this setting". -/
def do_rollback_write_transact (c : WriteLogCollector) : WriteLogCollector := c

/-- The calls `do_transact_log_append(b)` for the byte strings of a list, in order. -/
def append_all (c : WriteLogCollector) : List (List Nat) → Except Fault WriteLogCollector
  | [] => .ok c
  | b :: bs =>
    match do_transact_log_append c b with
    | .error e => .error e
    | .ok c1 => append_all c1 bs

/-- One write transaction: `do_begin_write_transact`, the appends, and
`do_commit_write_transact(orig_version)`. -/
def write_transaction (c : WriteLogCollector) (reg : WriteLogRegistry) (bs : List (List Nat))
    (orig_version : Nat) : Except Fault (WriteLogCollector × WriteLogRegistry × Nat) :=
  match append_all (do_begin_write_transact c) bs with
  | .error e => .error e
  | .ok c1 => do_commit_write_transact c1 reg orig_version

/-! ## Well-formedness of the free list -/

/-- The free-list links `next_free_entry` of the interest table, slot by slot. -/
def next_links (s : WriteLogRegistry) : List Int :=
  s.m_interests.map Interest.next_free_entry

/-- `FreeChain links head l`: following the links from `head` visits the slots `l`, in
this order, and then reaches the terminator `-1`. -/
inductive FreeChain (links : List Int) : Int → List Nat → Prop where
  | done : FreeChain links (-1) []
  | step {j : Nat} {next : Int} {l : List Nat} :
      links[j]? = some next → FreeChain links next l → FreeChain links (j : Int) (j :: l)

/-- The free list starting at `m_interest_free_list` is acyclic, ends in `-1` and holds
exactly the slots that are not marked in use. -/
def FreeListOk (s : WriteLogRegistry) : Prop :=
  ∃ l : List Nat, FreeChain (next_links s) s.m_interest_free_list l ∧ l.Nodup ∧
    ∀ (j : Nat) (next : Int), (next_links s)[j]? = some next → (j ∈ l ↔ next ≠ -2)

/-- States reached from a fresh registry by calls that return without a fault, where
`unregister_interest` is only applied to ids that are in use. -/
inductive SlotsReachable : WriteLogRegistry → Prop where
  | init : SlotsReachable .init
  | register {s s1 : WriteLogRegistry} {id : Int} :
      SlotsReachable s → register_interest s = .ok (s1, id) → SlotsReachable s1
  | unregister {s s1 : WriteLogRegistry} {id : Int} {slot : Interest} :
      SlotsReachable s → at_int s.m_interests id = some slot → slot.next_free_entry = -2 →
      unregister_interest s id = .ok s1 → SlotsReachable s1
  | commit {s s1 : WriteLogRegistry} {version : Nat} {data : Option Buffer} {sz : Nat} :
      SlotsReachable s → add_commit s version data sz = .ok s1 → SlotsReachable s1
  | release {s s1 : WriteLogRegistry} {id : Int} {to_v : Nat} :
      SlotsReachable s → release_commit_entries s id to_v = .ok s1 → SlotsReachable s1

/-! ## Evaluations on concrete call sequences -/

/-- C2 (failing input).  Reader 0 registers, reader 1 registers and unregisters while no
commit is retained.  The scan of `cleanup` starts from `newest_version() + 1`, which is 0
on the empty store, so no slot is below it and `m_laziest_reader` becomes `-1` although
reader 0 is still in use.  Version 1, committed next, is not retained: it is not
interesting and `get_commit_entries(0, 1)` fails its first assertion. -/
theorem retention_lost_for_registered_reader :
    run .init [.register, .register, .unregister 1, .commit 1 (some [97, 98]) 2]
        = .ok (.mk [] 0 0 [⟨0, -2⟩, ⟨0, -1⟩] 1 (-1))
      ∧ is_interesting (.mk [] 0 0 [⟨0, -2⟩, ⟨0, -1⟩] 1 (-1)) 1 = .ok false
      ∧ get_commit_entries (.mk [] 0 0 [⟨0, -2⟩, ⟨0, -1⟩] 1 (-1)) 0 1 = .error .assertion := by
  decide

/-- C3 (failing input).  In the state reached by register, register, unregister(1), slot 0
is in use with `last_seen_version = 0 < 1`, and `add_commit(1, data, sz)` returns without
appending anything, for every buffer. -/
theorem add_commit_drops_with_reader_behind (data : Option Buffer) (sz : Nat) :
    run .init [.register, .register, .unregister 1]
        = .ok (.mk [] 0 0 [⟨0, -2⟩, ⟨0, -1⟩] 1 (-1))
      ∧ at_int (WriteLogRegistry.mk [] 0 0 [⟨0, -2⟩, ⟨0, -1⟩] 1 (-1)).m_interests 0
          = some ⟨0, -2⟩
      ∧ add_commit (.mk [] 0 0 [⟨0, -2⟩, ⟨0, -1⟩] 1 (-1)) 1 data sz
          = .ok (.mk [] 0 0 [⟨0, -2⟩, ⟨0, -1⟩] 1 (-1)) := by
  refine ⟨by decide, by decide, rfl⟩

/-- C5 (failing input).  On a fresh store `add_commit(1, ..)` is discarded; after the
`register_interest` that follows, the store is still empty, yet `is_a_known_commit`
holds of version 1 (and of the largest version), because `newest_version()` wraps to
`2 ^ 64 - 1`.  Both assertions of `get_commit_entries(0, 1)` pass and the loop reads
`m_commits[1]` of an empty vector.  After a partial cleanup of versions 1..3 the function
also accepts version 4, whose index is the length of the array. -/
theorem known_commit_accepts_absent_versions :
    run .init [.commit 1 (some [97]) 1, .register] = .ok (.mk [] 0 0 [⟨0, -2⟩] (-1) 0)
      ∧ is_a_known_commit (.mk [] 0 0 [⟨0, -2⟩] (-1) 0) 1 = true
      ∧ is_a_known_commit (.mk [] 0 0 [⟨0, -2⟩] (-1) 0) (U64 - 1) = true
      ∧ is_interesting (.mk [] 0 0 [⟨0, -2⟩] (-1) 0) 1 = .ok true
      ∧ get_commit_entries (.mk [] 0 0 [⟨0, -2⟩] (-1) 0) 0 1 = .error .out_of_bounds
      ∧ run .init [.register, .commit 1 (some [1]) 1, .commit 2 (some [2]) 1,
            .commit 3 (some [3]) 1, .release 0 1]
          = .ok (.mk [⟨0, none⟩, ⟨1, some [2]⟩, ⟨1, some [3]⟩] 1 2 [⟨1, -2⟩] (-1) 0)
      ∧ is_a_known_commit
          (.mk [⟨0, none⟩, ⟨1, some [2]⟩, ⟨1, some [3]⟩] 1 2 [⟨1, -2⟩] (-1) 0) 4 = true
      ∧ to_index (.mk [⟨0, none⟩, ⟨1, some [2]⟩, ⟨1, some [3]⟩] 1 2 [⟨1, -2⟩] (-1) 0) 4 = 3 := by
  decide

/-- C6 (failing input).  Version 1 is committed before anybody registers and is dropped;
reader 0 registers, version 2 is committed and retained with `m_array_start = 2`, reader 1
registers.  Version 2 is fetchable, and reader 0, which stays registered, has
`last_seen_version = 0 < 2`.  `unregister_interest(1)` runs `cleanup`, whose watermark is
0: nothing is freed, `m_oldest_version` is set to `0 + 1 = 1`, below `m_array_start`,
`to_index(1)` wraps to `2 ^ 64 - 1` and the compaction copies from that position, outside
the array.  A second input, without any fault: with versions `2 ^ 64 - 10 ..
2 ^ 64 - 3` retained, reader 0 at `2 ^ 64 - 7` and reader 1 releasing `2 ^ 64 - 5`, the
cleanup frees four entries, `newest_version()` wraps to 1, and version `2 ^ 64 - 4`, which
was fetchable and is ahead of reader 0, fails the assertions of `get_commit_entries`. -/
theorem cleanup_breaks_fetch_of_slower_reader :
    run .init [.commit 1 (some [1]) 1, .register, .commit 2 (some [2]) 1, .register]
        = .ok (.mk [⟨1, some [2]⟩] 2 2 [⟨0, -2⟩, ⟨0, -2⟩] (-1) 1)
      ∧ get_commit_entries (.mk [⟨1, some [2]⟩] 2 2 [⟨0, -2⟩, ⟨0, -2⟩] (-1) 1) 1 2
          = .ok [(some [2], 1)]
      ∧ unregister_interest (.mk [⟨1, some [2]⟩] 2 2 [⟨0, -2⟩, ⟨0, -2⟩] (-1) 1) 1
          = .error .out_of_bounds
      ∧ run .init [.register, .register, .commit (U64 - 10) (some [0]) 1,
            .commit (U64 - 9) (some [1]) 1, .commit (U64 - 8) (some [2]) 1,
            .commit (U64 - 7) (some [3]) 1, .commit (U64 - 6) (some [4]) 1,
            .commit (U64 - 5) (some [5]) 1, .commit (U64 - 4) (some [6]) 1,
            .commit (U64 - 3) (some [7]) 1, .release 0 (U64 - 7)]
          = .ok (.mk [⟨1, some [0]⟩, ⟨1, some [1]⟩, ⟨1, some [2]⟩, ⟨1, some [3]⟩,
              ⟨1, some [4]⟩, ⟨1, some [5]⟩, ⟨1, some [6]⟩, ⟨1, some [7]⟩]
              (U64 - 10) (U64 - 10) [⟨U64 - 7, -2⟩, ⟨0, -2⟩] (-1) 1)
      ∧ get_commit_entries (.mk [⟨1, some [0]⟩, ⟨1, some [1]⟩, ⟨1, some [2]⟩, ⟨1, some [3]⟩,
              ⟨1, some [4]⟩, ⟨1, some [5]⟩, ⟨1, some [6]⟩, ⟨1, some [7]⟩]
              (U64 - 10) (U64 - 10) [⟨U64 - 7, -2⟩, ⟨0, -2⟩] (-1) 1) (U64 - 5) (U64 - 4)
          = .ok [(some [6], 1)]
      ∧ release_commit_entries (.mk [⟨1, some [0]⟩, ⟨1, some [1]⟩, ⟨1, some [2]⟩,
              ⟨1, some [3]⟩, ⟨1, some [4]⟩, ⟨1, some [5]⟩, ⟨1, some [6]⟩, ⟨1, some [7]⟩]
              (U64 - 10) (U64 - 10) [⟨U64 - 7, -2⟩, ⟨0, -2⟩] (-1) 1) 1 (U64 - 5)
          = .ok (.mk [⟨0, none⟩, ⟨0, none⟩, ⟨0, none⟩, ⟨0, none⟩,
              ⟨1, some [4]⟩, ⟨1, some [5]⟩, ⟨1, some [6]⟩, ⟨1, some [7]⟩]
              (U64 - 10) (U64 - 6) [⟨U64 - 7, -2⟩, ⟨U64 - 5, -2⟩] (-1) 0)
      ∧ get_commit_entries (.mk [⟨0, none⟩, ⟨0, none⟩, ⟨0, none⟩, ⟨0, none⟩,
              ⟨1, some [4]⟩, ⟨1, some [5]⟩, ⟨1, some [6]⟩, ⟨1, some [7]⟩]
              (U64 - 10) (U64 - 6) [⟨U64 - 7, -2⟩, ⟨U64 - 5, -2⟩] (-1) 0) (U64 - 5) (U64 - 4)
          = .error .assertion := by
  decide

/-- C7 (counterexample).  With no reader registered, versions 1, 2 and then 4 are all
taken by `add_commit` without any fault: the gap is dropped silently.  With a reader that
has released versions 1 and 2, so that the store is empty again, version 4 is retained
without any fault as well. -/
theorem gap_without_reader_is_not_detected :
    run .init [.commit 1 (some [1]) 1, .commit 2 (some [2]) 1] = .ok .init
      ∧ add_commit .init 4 (some [4]) 1 = .ok .init
      ∧ run .init [.register, .commit 1 (some [1]) 1, .commit 2 (some [2]) 1, .release 0 2]
          = .ok (.mk [] 0 0 [⟨2, -2⟩] (-1) 0)
      ∧ add_commit (.mk [] 0 0 [⟨2, -2⟩] (-1) 0) 4 (some [4]) 1
          = .ok (.mk [⟨1, some [4]⟩] 4 4 [⟨2, -2⟩] (-1) 0) := by
  decide

/-- C8 (failing input).  Commits 1, 2, 3 are retained for reader 0, which then releases
version 1.  The cleanup frees version 1 and moves `m_oldest_version` to 2 without
compacting, after which `newest_version()` is 4 although the newest retained commit is 3,
and the gap-free `add_commit(4, ..)` fails the ordering assertion. -/
theorem consecutive_commit_fails_assertion :
    run .init [.register, .commit 1 (some [1]) 1, .commit 2 (some [2]) 1,
          .commit 3 (some [3]) 1, .release 0 1]
        = .ok (.mk [⟨0, none⟩, ⟨1, some [2]⟩, ⟨1, some [3]⟩] 1 2 [⟨1, -2⟩] (-1) 0)
      ∧ newest_version
          (.mk [⟨0, none⟩, ⟨1, some [2]⟩, ⟨1, some [3]⟩] 1 2 [⟨1, -2⟩] (-1) 0) = 4
      ∧ add_commit (.mk [⟨0, none⟩, ⟨1, some [2]⟩, ⟨1, some [3]⟩] 1 2 [⟨1, -2⟩] (-1) 0)
          4 (some [4]) 1 = .error .assertion := by
  decide

/-- C9 (failing input), the scenario up to the last call that succeeds.  After
A = 0 registers, versions 1, 2, 3 are committed and retained, B = 1 registers and A
releases version 2 (nothing is freed), `release_commit_entries(B, 3)` frees versions 1
and 2 and enters the compaction branch, whose `std::copy` reads `m_commits[3]` of a vector
of three elements.  If that read is let through and finds an entry, here `(7, [7])`,
the array becomes `[entry 3, (7, [7])]`, version 3 stays fetchable, and
`release_commit_entries(A, 3)` then leaves `m_oldest_version = 4`, `m_array_start = 3`
and an array of length 2: the store is not empty. -/
theorem end_to_end_scenario_diverges :
    run .init [.register, .commit 1 (some [1]) 1, .commit 2 (some [2]) 1,
          .commit 3 (some [3]) 1, .register, .release 0 2]
        = .ok (.mk [⟨1, some [1]⟩, ⟨1, some [2]⟩, ⟨1, some [3]⟩] 1 1
            [⟨2, -2⟩, ⟨0, -2⟩] (-1) 1)
      ∧ release_commit_entries
          (.mk [⟨1, some [1]⟩, ⟨1, some [2]⟩, ⟨1, some [3]⟩] 1 1 [⟨2, -2⟩, ⟨0, -2⟩] (-1) 1)
          1 3 = .error .out_of_bounds
      ∧ run_with (some ⟨7, some [7]⟩) .init
          [.register, .commit 1 (some [1]) 1, .commit 2 (some [2]) 1,
            .commit 3 (some [3]) 1, .register, .release 0 2, .release 1 3]
          = .ok (.mk [⟨1, some [3]⟩, ⟨7, some [7]⟩] 3 3 [⟨2, -2⟩, ⟨3, -2⟩] (-1) 0)
      ∧ get_commit_entries
          (.mk [⟨1, some [3]⟩, ⟨7, some [7]⟩] 3 3 [⟨2, -2⟩, ⟨3, -2⟩] (-1) 0) 2 3
          = .ok [(some [3], 1)]
      ∧ release_commit_entries_with (some ⟨7, some [7]⟩)
          (.mk [⟨1, some [3]⟩, ⟨7, some [7]⟩] 3 3 [⟨2, -2⟩, ⟨3, -2⟩] (-1) 0) 0 3
          = .ok (.mk [⟨0, none⟩, ⟨7, some [7]⟩] 3 4 [⟨3, -2⟩, ⟨3, -2⟩] (-1) 0) := by
  decide

/-! ## Word arithmetic -/

theorem wadd_lt (a b : Nat) : wadd a b < U64 := by
  unfold wadd U64; omega

theorem wsub_lt (a b : Nat) : wsub a b < U64 := by
  unfold wsub U64; omega

theorem wadd_of_lt {a b : Nat} (h : a + b < U64) : wadd a b = a + b := by
  unfold wadd; exact Nat.mod_eq_of_lt h

theorem wsub_of_le {a b : Nat} (hb : b ≤ a) (ha : a < U64) : wsub a b = a - b := by
  unfold wsub U64 at *; omega

/-! ## `add_commit` -/

theorem is_interesting_false_of {s : WriteLogRegistry} {version : Nat}
    (h : s.m_laziest_reader = -1 ∨
      ∃ i, at_int s.m_interests s.m_laziest_reader = some i ∧ version ≤ i.last_seen_version) :
    is_interesting s version = .ok false := by
  unfold is_interesting
  rcases h with h | ⟨i, hi, hv⟩
  · simp [h]
  · by_cases hl : s.m_laziest_reader = -1
    · simp [hl]
    · simp [hl, hi, Nat.not_lt.mpr hv]

/-- C4.  When the cached watermark is none, or the cached laziest reader has already seen
`version`, `add_commit(version, data, sz)` returns normally with every field of the store
as it was, whatever the version. -/
theorem add_commit_fast_path (s : WriteLogRegistry) (version : Nat) (data : Option Buffer)
    (sz : Nat)
    (h : s.m_laziest_reader = -1 ∨
      ∃ i, at_int s.m_interests s.m_laziest_reader = some i ∧ version ≤ i.last_seen_version) :
    add_commit s version data sz = .ok s := by
  unfold add_commit
  rw [is_interesting_false_of h]

/-- Witness of C4: an out-of-order version 9 offered to a store that holds versions 1..2
for a reader that has already released version 10. -/
theorem add_commit_fast_path_witness :
    ((WriteLogRegistry.mk [⟨1, some [1]⟩, ⟨1, some [2]⟩] 1 1 [⟨10, -2⟩] (-1) 0).m_laziest_reader
          = -1 ∨
        ∃ i, at_int
            (WriteLogRegistry.mk [⟨1, some [1]⟩, ⟨1, some [2]⟩] 1 1 [⟨10, -2⟩] (-1)
              0).m_interests
            (WriteLogRegistry.mk [⟨1, some [1]⟩, ⟨1, some [2]⟩] 1 1 [⟨10, -2⟩] (-1)
              0).m_laziest_reader = some i ∧ 9 ≤ i.last_seen_version)
      ∧ add_commit (.mk [⟨1, some [1]⟩, ⟨1, some [2]⟩] 1 1 [⟨10, -2⟩] (-1) 0) 9 (some [9]) 1
        = .ok (.mk [⟨1, some [1]⟩, ⟨1, some [2]⟩] 1 1 [⟨10, -2⟩] (-1) 0) :=
  ⟨Or.inr ⟨⟨10, -2⟩, by decide, by decide⟩,
    add_commit_fast_path _ 9 (some [9]) 1 (Or.inr ⟨⟨10, -2⟩, by decide, by decide⟩)⟩

theorem add_commit_assertion_guard (s : WriteLogRegistry) (version : Nat)
    (data : Option Buffer) (sz : Nat) :
    add_commit s version data sz = .error .assertion ↔
      (is_interesting s version = .ok true ∧ s.m_oldest_version ≠ 0
        ∧ version ≠ wadd 1 (newest_version s)) := by
  unfold add_commit
  cases hi : is_interesting s version with
  | error f =>
    have hf : f ≠ .assertion := by
      intro hf
      subst hf
      unfold is_interesting at hi
      split at hi
      · cases hi
      · split at hi
        · cases hi
        · split at hi <;> cases hi
    simp [hf]
  | ok b =>
    cases b with
    | false => simp
    | true =>
      by_cases h0 : s.m_oldest_version = 0
      · simp [TIGHTDB_ASSERT, h0]
      · by_cases h1 : version = wadd 1 (newest_version s)
        · simp [TIGHTDB_ASSERT, h0, ← h1]
        · simp [TIGHTDB_ASSERT, h0, h1]

theorem add_commit_not_interesting {s : WriteLogRegistry} {version : Nat}
    (data : Option Buffer) (sz : Nat) (hi : is_interesting s version = .ok false) :
    add_commit s version data sz = .ok s := by
  unfold add_commit
  rw [hi]

theorem add_commit_into_empty {s : WriteLogRegistry} {version : Nat}
    (data : Option Buffer) (sz : Nat) (hi : is_interesting s version = .ok true)
    (h0 : s.m_oldest_version = 0) :
    add_commit s version data sz
      = .ok { s with
          m_array_start := version
          m_oldest_version := version
          m_commits := s.m_commits ++ [⟨sz, data⟩] } := by
  unfold add_commit
  rw [hi]
  simp [TIGHTDB_ASSERT, h0]

/-! ## Fetching what one reader was sent -/

theorem register_interest_init :
    register_interest .init = .ok (.mk [] 0 0 [⟨0, -2⟩] (-1) 0, 0) := by
  decide

theorem newest_version_single_reader_store (v : Nat) (bufs : List BinaryData)
    (hne : bufs ≠ []) (hb : v + bufs.length ≤ U64) :
    newest_version (single_reader_store v bufs) = v + bufs.length - 1 := by
  have hl : 0 < bufs.length := List.length_pos.mpr hne
  simp only [newest_version, to_version, to_index, single_reader_store, wadd, wsub,
    List.length_map, U64] at *
  omega

theorem is_interesting_single_reader_store (v : Nat) (bufs : List BinaryData) (x : Nat)
    (hx : 1 ≤ x) : is_interesting (single_reader_store v bufs) x = .ok true := by
  have : 0 < x := hx
  simp [is_interesting, single_reader_store, at_int, this]

theorem add_commit_first (v : Nat) (b : BinaryData) (hv : 1 ≤ v) :
    add_commit (.mk [] 0 0 [⟨0, -2⟩] (-1) 0) v b.1 b.2 = .ok (single_reader_store v [b]) := by
  have : 0 < v := hv
  simp [add_commit, is_interesting, at_int, this, TIGHTDB_ASSERT, single_reader_store, entry_of]

theorem add_commit_next (v : Nat) (bufs : List BinaryData) (b : BinaryData) (hv : 1 ≤ v)
    (hne : bufs ≠ []) (hb : v + bufs.length < U64) :
    add_commit (single_reader_store v bufs) (v + bufs.length) b.1 b.2
      = .ok (single_reader_store v (bufs ++ [b])) := by
  have hl : 0 < bufs.length := List.length_pos.mpr hne
  have hnew := newest_version_single_reader_store v bufs hne (Nat.le_of_lt hb)
  have hw : wadd 1 (v + bufs.length - 1) = v + bufs.length := by
    simp only [wadd, U64] at *; omega
  unfold add_commit
  rw [is_interesting_single_reader_store v bufs _ (by omega)]
  simp only [hnew, hw, TIGHTDB_ASSERT]
  have hv0 : v ≠ 0 := by omega
  simp [hv0, single_reader_store, entry_of]

theorem add_commits_single_reader_store (v : Nat) (rest : List BinaryData) :
    ∀ bufs : List BinaryData, 1 ≤ v → bufs ≠ [] → v + bufs.length + rest.length ≤ U64 →
      add_commits (single_reader_store v bufs) (v + bufs.length) rest
        = .ok (single_reader_store v (bufs ++ rest)) := by
  induction rest with
  | nil => intro bufs _ _ _; simp [add_commits]
  | cons b rest ih =>
    intro bufs hv hne hb
    simp only [List.length_cons] at hb
    unfold add_commits
    rw [add_commit_next v bufs b hv hne (by omega)]
    have := ih (bufs ++ [b]) hv (by simp) (by simp; omega)
    simp only [List.length_append, List.length_singleton, List.append_assoc,
      List.singleton_append] at this
    simpa using this

theorem get_commit_entries_loop_single_reader_store (v : Nat) (bufs : List BinaryData)
    (hv : 1 ≤ v) (hb : v + bufs.length ≤ U64) :
    ∀ (fuel x to_v : Nat) (out : List BinaryData), v ≤ x → to_v < v + bufs.length →
      to_v + 1 < U64 → to_v + 1 - x < fuel →
      get_commit_entries_loop (single_reader_store v bufs) fuel x to_v out
        = .ok (out ++ (bufs.drop (x - v)).take (to_v + 1 - x)) := by
  intro fuel
  induction fuel with
  | zero => intro x to_v out _ _ _ h; omega
  | succ fuel ih =>
    intro x to_v out hx hto htop hfuel
    unfold get_commit_entries_loop
    by_cases hle : x ≤ to_v
    · have hne : bufs ≠ [] := by
        intro h; subst h; simp at hto; omega
      have hnew := newest_version_single_reader_store v bufs hne hb
      have hknown : is_a_known_commit (single_reader_store v bufs) x = true := by
        unfold is_a_known_commit
        rw [hnew]
        simp only [single_reader_store, decide_eq_true_eq]
        omega
      have hidx : to_index (single_reader_store v bufs) x = x - v := by
        simp only [to_index, single_reader_store]
        exact wsub_of_le hx (by omega)
      have hlt : x - v < bufs.length := by omega
      have hget : (single_reader_store v bufs).m_commits[x - v]?
          = some (entry_of (bufs[x - v])) := by
        simp [single_reader_store, hlt]
      have hw : wadd x 1 = x + 1 := wadd_of_lt (by omega)
      rw [if_pos hle, is_interesting_single_reader_store v bufs x (by omega)]
      simp only [hknown, TIGHTDB_ASSERT, if_true, hidx, hget, hw]
      rw [ih (x + 1) to_v _ (by omega) hto htop (by omega)]
      have h1 : to_v + 1 - x = (to_v + 1 - (x + 1)) + 1 := by omega
      have h2 : bufs.drop (x - v) = bufs[x - v] :: bufs.drop (x + 1 - v) := by
        rw [show x + 1 - v = (x - v) + 1 by omega]
        exact List.drop_eq_getElem_cons hlt
      rw [h1, h2, List.take_succ_cons]
      simp [entry_of]
    · rw [if_neg hle]
      have : to_v + 1 - x = 0 := by omega
      simp [this]

/-- C1 (amended).  Let `v ≥ 1` and let `bufs` be `n ≥ 1` buffers whose versions
`v, .., v + n - 1` are 64-bit values.  On a fresh registry, `register_interest` followed by
`add_commit` of the buffers under these versions succeeds, and then
`get_commit_entries(from, to)`, for every `v - 1 ≤ from ≤ to ≤ v + n - 1` with
`to < 2 ^ 64 - 1`, writes exactly `to - from` views, the `k`-th of which is the buffer
submitted for version `from + 1 + k`. -/
theorem fetch_returns_committed (v : Nat) (bufs : List BinaryData) (hv : 1 ≤ v)
    (hn : bufs ≠ []) (hb : v + bufs.length ≤ U64) :
    ∃ s0 id s, register_interest .init = .ok (s0, id) ∧ add_commits s0 v bufs = .ok s ∧
      ∀ from_v to_v, v - 1 ≤ from_v → from_v ≤ to_v → to_v ≤ v + bufs.length - 1 →
        to_v < U64 - 1 →
        ∃ views, get_commit_entries s from_v to_v = .ok views
          ∧ views.length = to_v - from_v
          ∧ ∀ k, k < to_v - from_v →
              views[k]? = bufs[from_v + 1 + k - v]? ∧ from_v + 1 + k - v < bufs.length := by
  obtain ⟨b, rest, rfl⟩ := List.exists_cons_of_ne_nil hn
  simp only [List.length_cons] at hb
  refine ⟨_, _, single_reader_store v (b :: rest), register_interest_init, ?_, ?_⟩
  · unfold add_commits
    rw [add_commit_first v b hv]
    have := add_commits_single_reader_store v rest [b] hv (by simp)
      (by simp only [List.length_singleton]; omega)
    simpa using this
  · intro from_v to_v hf hft ht htop
    simp only [List.length_cons] at ht
    have hw : wadd from_v 1 = from_v + 1 := wadd_of_lt (by omega)
    refine ⟨[] ++ ((b :: rest).drop (from_v + 1 - v)).take (to_v + 1 - (from_v + 1)),
      ?_, ?_, ?_⟩
    · unfold get_commit_entries
      rw [hw]
      exact get_commit_entries_loop_single_reader_store v (b :: rest) hv
        (by simp only [List.length_cons]; omega) _ _ _ _ (by omega)
        (by simp only [List.length_cons]; omega) (by omega)
        (by simp [single_reader_store]; omega)
    · simp only [List.nil_append, List.length_take, List.length_drop, List.length_cons]
      omega
    · intro k hk
      refine ⟨?_, by simp only [List.length_cons]; omega⟩
      simp only [List.nil_append]
      rw [List.getElem?_take_of_lt (by omega), List.getElem?_drop]
      congr 1
      omega

/-- Witness of C1: two buffers committed as versions 5 and 6. -/
theorem fetch_returns_committed_witness :
    1 ≤ 5 ∧ [((some [1] : Option Buffer), 1), (some [2, 3], 2)] ≠ [] ∧
      5 + [((some [1] : Option Buffer), 1), (some [2, 3], 2)].length ≤ U64 ∧
      ∃ s0 id s, register_interest .init = .ok (s0, id) ∧
        add_commits s0 5 [(some [1], 1), (some [2, 3], 2)] = .ok s ∧
        ∀ from_v to_v, 5 - 1 ≤ from_v → from_v ≤ to_v →
          to_v ≤ 5 + [((some [1] : Option Buffer), 1), (some [2, 3], 2)].length - 1 →
          to_v < U64 - 1 →
          ∃ views, get_commit_entries s from_v to_v = .ok views
            ∧ views.length = to_v - from_v
            ∧ ∀ k, k < to_v - from_v →
                views[k]? = [((some [1] : Option Buffer), 1), (some [2, 3], 2)][from_v + 1 + k - 5]?
                ∧ from_v + 1 + k - 5
                  < [((some [1] : Option Buffer), 1), (some [2, 3], 2)].length :=
  ⟨by decide, by decide, by decide,
    fetch_returns_committed 5 [(some [1], 1), (some [2, 3], 2)] (by decide) (by decide)
      (by decide)⟩

/-- C1 (counterexample).  With `v = 2 ^ 64 - 1` and one buffer, the register and the commit
succeed, but `get_commit_entries(v - 1, v)` does not write one view and return: after
the first view its loop counter wraps to 0 and the next assertion fails. -/
theorem fetch_at_largest_version_fails :
    register_interest .init = .ok (.mk [] 0 0 [⟨0, -2⟩] (-1) 0, 0)
      ∧ add_commits (.mk [] 0 0 [⟨0, -2⟩] (-1) 0) (U64 - 1) [(some [1], 1)]
          = .ok (.mk [⟨1, some [1]⟩] (U64 - 1) (U64 - 1) [⟨0, -2⟩] (-1) 0)
      ∧ get_commit_entries (.mk [⟨1, some [1]⟩] (U64 - 1) (U64 - 1) [⟨0, -2⟩] (-1) 0)
          (U64 - 2) (U64 - 1) = .error .assertion := by
  decide

/-! ## The loops of `cleanup` -/

theorem at_int_append_left {α : Type} (pre xs : List α) (l : Int) (x : α)
    (h : at_int pre l = some x) : at_int (pre ++ xs) l = some x := by
  unfold at_int at *
  split at h
  · rename_i h0
    rw [if_pos h0]
    have hlt : l.toNat < pre.length := by
      by_contra hc
      rw [List.getElem?_eq_none (by omega)] at h
      cases h
    rw [List.getElem?_append_left hlt]
    exact h
  · cases h

theorem at_int_length_append {α : Type} (pre xs : List α) (x : α) :
    at_int (pre ++ x :: xs) (pre.length : Int) = some x := by
  unfold at_int
  rw [if_pos (Int.ofNat_nonneg _), Int.toNat_ofNat,
    List.getElem?_append_right (Nat.le_refl _)]
  simp

theorem cleanup_scan_spec (e0 : Nat) :
    ∀ (xs pre : List Interest) (l : Int) (e : Nat),
      (∀ y ∈ pre, y.next_free_entry = -2 → e ≤ y.last_seen_version) → e ≤ e0 →
      (l ≠ -1 → ∃ x, at_int pre l = some x ∧ x.next_free_entry = -2
          ∧ x.last_seen_version = e ∧ e < e0) →
      (∀ y ∈ pre ++ xs, y.next_free_entry = -2 →
          (cleanup_scan xs pre.length l e).2 ≤ y.last_seen_version)
        ∧ ((cleanup_scan xs pre.length l e).1 ≠ -1 →
            ∃ x, at_int (pre ++ xs) (cleanup_scan xs pre.length l e).1 = some x
              ∧ x.next_free_entry = -2
              ∧ x.last_seen_version = (cleanup_scan xs pre.length l e).2
              ∧ (cleanup_scan xs pre.length l e).2 < e0) := by
  intro xs
  induction xs with
  | nil =>
    intro pre l e hpre _ hl
    simp only [cleanup_scan, List.append_nil]
    exact ⟨hpre, hl⟩
  | cons x xs ih =>
    intro pre l e hpre he hl
    have hlen : (pre ++ [x]).length = pre.length + 1 := by simp
    have happ : pre ++ x :: xs = (pre ++ [x]) ++ xs := by simp
    unfold cleanup_scan
    by_cases hx : x.next_free_entry = -2 ∧ x.last_seen_version < e
    · rw [if_pos hx, happ, ← hlen]
      apply ih (pre ++ [x]) (pre.length : Int) x.last_seen_version
      · intro y hy hy2
        rcases List.mem_append.mp hy with hy | hy
        · exact Nat.le_trans (Nat.le_of_lt hx.2) (hpre y hy hy2)
        · simp only [List.mem_singleton] at hy
          subst hy
          exact Nat.le_refl _
      · omega
      · intro _
        refine ⟨x, ?_, hx.1, rfl, by omega⟩
        have := at_int_length_append pre [] x
        simpa using this
    · rw [if_neg hx, happ, ← hlen]
      apply ih (pre ++ [x]) l e
      · intro y hy hy2
        rcases List.mem_append.mp hy with hy | hy
        · exact hpre y hy hy2
        · simp only [List.mem_singleton] at hy
          subst hy
          by_contra hc
          exact hx ⟨hy2, by omega⟩
      · exact he
      · intro hl1
        obtain ⟨y, hy, h2, h3, h4⟩ := hl hl1
        exact ⟨y, at_int_append_left pre [x] l y hy, h2, h3, h4⟩

theorem cleanup_free_spec (start last_to_clean : Nat) :
    ∀ (fuel version : Nat) (commits freed : List CommitEntry),
      cleanup_free start fuel version last_to_clean commits = .ok freed →
      freed.length = commits.length
        ∧ (∀ (i : Nat) (e : CommitEntry), freed[i]? = some e → e.data ≠ none →
            commits[i]? = some e)
        ∧ (∀ i : Nat, commits[i]? = some (CommitEntry.mk 0 none) →
            freed[i]? = some (CommitEntry.mk 0 none))
        ∧ (∀ v, version ≤ v → v ≤ last_to_clean →
            freed[wsub v start]? = some (CommitEntry.mk 0 none)) := by
  intro fuel
  induction fuel with
  | zero => intro version commits freed h; simp [cleanup_free] at h
  | succ fuel ih =>
    intro version commits freed h
    unfold cleanup_free at h
    by_cases hle : version ≤ last_to_clean
    · rw [if_pos hle] at h
      simp only at h
      by_cases hidx : wsub version start < commits.length
      · rw [if_pos hidx] at h
        obtain ⟨h1, h2, h3, h4⟩ := ih _ _ _ h
        have hset : (commits.set (wsub version start) (CommitEntry.mk 0 none))[wsub version start]?
            = some (CommitEntry.mk 0 none) := by
          simp [hidx]
        refine ⟨by simpa using h1, ?_, ?_, ?_⟩
        · intro i e hi he
          have := h2 i e hi he
          by_cases hii : wsub version start = i
          · subst hii
            rw [hset] at this
            cases this
            exact absurd rfl he
          · rwa [List.getElem?_set_ne hii] at this
        · intro i hi
          apply h3
          by_cases hii : wsub version start = i
          · subst hii; exact hset
          · rwa [List.getElem?_set_ne hii]
        · intro v hv1 hv2
          by_cases hvv : v = version
          · subst hvv
            exact h3 _ hset
          · apply h4 v _ hv2
            have : wadd version 1 ≤ version + 1 := by unfold wadd; exact Nat.mod_le _ _
            omega
      · rw [if_neg hidx] at h; cases h
    · rw [if_neg hle] at h
      cases h
      refine ⟨rfl, fun i e hi _ => hi, fun i hi => hi, ?_⟩
      intro v hv1 hv2
      omega

theorem cleanup_free_top (start : Nat) :
    ∀ (fuel version : Nat) (commits freed : List CommitEntry), version < U64 →
      cleanup_free start fuel version (U64 - 1) commits ≠ .ok freed := by
  intro fuel
  induction fuel with
  | zero => intro version commits freed _ h; simp [cleanup_free] at h
  | succ fuel ih =>
    intro version commits freed hv h
    unfold cleanup_free at h
    rw [if_pos (by omega)] at h
    simp only at h
    by_cases hidx : wsub version start < commits.length
    · rw [if_pos hidx] at h
      exact ih _ _ _ (wadd_lt _ _) h
    · rw [if_neg hidx] at h; cases h

theorem copy_loop_none_spec (n : Nat) :
    ∀ (fuel first dest : Nat) (commits moved : List CommitEntry), commits.length = n →
      copy_loop none fuel first (n + 1) dest commits = .ok moved → first = n + 1 := by
  intro fuel
  induction fuel with
  | zero => intro first dest commits moved _ h; simp [copy_loop] at h
  | succ fuel ih =>
    intro first dest commits moved hn h
    unfold copy_loop at h
    by_cases hf : first = n + 1
    · exact hf
    · rw [if_pos hf] at h
      by_cases hlen : first = commits.length
      · simp [hlen] at h
      · rw [if_neg hlen] at h
        cases hget : commits[first]? with
        | none => rw [hget] at h; simp at h
        | some e =>
          rw [hget] at h
          simp only at h
          have hlt : first < commits.length := by
            by_contra hc
            rw [List.getElem?_eq_none (by omega)] at hget
            cases hget
          by_cases hd : dest < commits.length
          · rw [if_pos hd] at h
            have := ih (first + 1) (dest + 1) _ moved (by simpa using hn) h
            omega
          · rw [if_neg hd] at h; cases h

/-! ## The invariant -/

theorem lt_length_of_getElem?_eq_some {α : Type} {l : List α} {i : Nat} {a : α}
    (h : l[i]? = some a) : i < l.length := by
  by_contra hc
  rw [List.getElem?_eq_none (by omega)] at h
  cases h

theorem inv_of_empty (ints : List Interest) (fl lz : Int) (last : Nat) (hT : last < U64)
    (hseen : ∀ (j : Nat) (x : Interest), ints[j]? = some x → x.last_seen_version < U64)
    (hlz : lz ≠ -1 → ∃ x, at_int ints lz = some x ∧ x.next_free_entry = -2) :
    Inv ⟨[], 0, 0, ints, fl, lz⟩ last := by
  have h0 : (0 : Nat) < U64 := by decide
  refine ⟨⟨h0, h0, hT, hseen, fun _ => ⟨rfl, rfl⟩, fun h => absurd rfl h,
    fun _ => rfl, ?_⟩, fun _ => rfl, hlz, ?_, fun h => absurd rfl h⟩
  · intro i e hi
    simp at hi
  · intro i e x hi
    simp at hi

theorem scan_start_top (A n : Nat) (h : A + n = U64) :
    wadd (wadd (wsub (wadd n (wsub A A)) 1) A) 1 = 0 := by
  unfold wadd wsub U64 at *
  omega

theorem no_compaction_window (A M n last : Nat) (hA1 : 1 ≤ A) (hn : 0 < n)
    (hTn : last + 1 = A + n) (hT2 : last + 1 < U64) (hMU : M + 1 < U64)
    (hc : wsub (M + 1) A ≤ n / 2) : A ≤ M + 1 ∧ M + 1 - A ≤ n / 2 := by
  unfold wsub U64 at *
  omega

theorem compaction_start (A M n last : Nat)
    (hTn : last + 1 = A + n) (hT2 : last + 1 < U64) (hMU : M + 1 < U64)
    (hc : wsub (M + 1) A = n + 1) : M = A + n := by
  unfold wsub U64 at *
  omega

theorem cleanup_inv (s s1 : WriteLogRegistry) (last : Nat) (hw : Window s last)
    (h : cleanup_with none s = .ok s1) : Inv s1 last := by
  obtain ⟨cs, A, O, ints, fl, lz⟩ := s
  obtain ⟨hA, hOl, hT, hseen, hempty, hwin, htop, hlive⟩ := hw
  simp only at hA hOl hseen hempty hwin htop hlive
  have hscan := cleanup_scan_spec (wadd (newest_version ⟨cs, A, O, ints, fl, lz⟩) 1) ints [] (-1)
    (wadd (newest_version ⟨cs, A, O, ints, fl, lz⟩) 1) (by simp) (Nat.le_refl _) (by simp)
  simp only [List.nil_append, List.length_nil] at hscan
  unfold cleanup_with at h
  simp only [newest_version, to_index, to_version] at h hscan
  generalize hr : cleanup_scan ints 0 (-1) (wadd (wadd (wsub (wadd cs.length (wsub O A)) 1) A) 1)
    = r at h hscan
  obtain ⟨lz1, M⟩ := r
  simp only at h hscan
  obtain ⟨hmin, hlz⟩ := hscan
  have hlzmin : lz1 ≠ -1 → ∃ x, at_int ints lz1 = some x ∧ x.next_free_entry = -2 := by
    intro hl
    obtain ⟨x, hx1, hx2, _⟩ := hlz hl
    exact ⟨x, hx1, hx2⟩
  by_cases hO : O = 0
  · rw [if_pos hO] at h
    cases h
    obtain ⟨hc, ha⟩ := hempty hO
    subst hc; subst ha; subst hO
    exact inv_of_empty ints fl lz1 last hT hseen hlzmin
  · rw [if_neg hO] at h
    by_cases hl1 : lz1 = -1
    · simp only [hl1, if_true, true_or] at h
      split at h
      · cases h
      · cases h
        exact inv_of_empty ints fl (-1) last hT hseen (fun hc => absurd rfl hc)
    · simp only [if_neg hl1, false_or] at h
      obtain ⟨hne, hA1, hAO, hhalf, hTn⟩ := hwin hO
      obtain ⟨x, hx1, hx2, hx3, hx4⟩ := hlz hl1
      have hlen : 0 < cs.length := List.length_pos.mpr hne
      have hT2 : last + 1 < U64 := by
        by_contra hc
        have hTU : last + 1 = U64 := by omega
        have hOA : O = A := htop hTU
        subst hOA
        rw [scan_start_top O cs.length (by omega)] at hx4
        omega
      have hMU : M + 1 < U64 := by
        have := wadd_lt (wadd (wsub (wadd cs.length (wsub O A)) 1) A) 1
        omega
      have hw1 : wadd M 1 = M + 1 := wadd_of_lt hMU
      cases hfree : cleanup_free A (cs.length + 1) O M cs with
      | error f => rw [hfree] at h; cases h
      | ok freed =>
        rw [hfree] at h
        simp only at h
        obtain ⟨hf1, hf2, _, hf4⟩ := cleanup_free_spec A M _ _ _ _ hfree
        have hM1 : O ≤ M → M - A < cs.length := by
          intro hOM
          have := lt_length_of_getElem?_eq_some (hf4 M hOM (Nat.le_refl _))
          rw [hf1, wsub_of_le (by omega) (by omega)] at this
          exact this
        have hM2 : M < A + cs.length := by
          by_cases hOM : O ≤ M
          · have := hM1 hOM
            omega
          · omega
        rw [hw1] at h
        split at h
        · cases h
          exact inv_of_empty ints fl lz1 last hT hseen hlzmin
        · split at h
          · split at h
            · cases h
            · rename_i moved hcopy
              have := copy_loop_none_spec freed.length _ _ _ freed moved rfl hcopy
              rw [hf1] at this
              have := compaction_start A M cs.length last hTn hT2 hMU this
              omega
          · rename_i hcomp
            cases h
            have hcomp1 : wsub (M + 1) A ≤ cs.length / 2 := by
              rw [hf1] at hcomp; omega
            obtain ⟨hn1, hn2⟩ := no_compaction_window A M cs.length last hA1 hlen hTn hT2 hMU hcomp1
            have hbelow : ∀ (i : Nat) (e : CommitEntry), freed[i]? = some e → e.data ≠ none →
                M + 1 ≤ A + i := by
              intro i e hi he
              have hci := hf2 i e hi he
              have hOi := hlive i e hci he
              have hil := lt_length_of_getElem?_eq_some hci
              by_contra hc
              have hfr := hf4 (A + i) hOi (by omega)
              rw [wsub_of_le (by omega) (by omega), Nat.add_sub_cancel_left, hi] at hfr
              cases hfr
              exact he rfl
            refine ⟨⟨hA, hMU, hT, hseen, ?_, ?_, ?_, hbelow⟩, ?_, hlzmin, ?_, ?_⟩
            · intro h0
              have h0 : M + 1 = 0 := h0
              omega
            · intro _
              refine ⟨?_, hA1, hn1, ?_, ?_⟩
              · intro hc
                have hc : freed = [] := hc
                rw [hc] at hf1
                simp at hf1
                omega
              · show M + 1 - A ≤ freed.length / 2
                rw [hf1]; exact hn2
              · show last + 1 = A + freed.length
                rw [hf1]; exact hTn
            · intro hc; omega
            · intro hc; exact absurd hc hl1
            · intro i e y hi he hy
              have hy : at_int ints lz1 = some y := hy
              rw [hx1] at hy
              cases hy
              have := hbelow i e hi he
              show x.last_seen_version < A + i
              omega
            · intro _ y hy
              have hy : at_int ints lz1 = some y := hy
              rw [hx1] at hy
              cases hy
              show x.last_seen_version < A + freed.length
              rw [hf1]
              omega

theorem at_int_nonneg {α : Type} {v : List α} {i : Int} {x : α} (h : at_int v i = some x) :
    0 ≤ i ∧ i.toNat < v.length := by
  unfold at_int at h
  split at h
  · rename_i h0
    exact ⟨h0, lt_length_of_getElem?_eq_some h⟩
  · cases h

theorem at_int_set_self {α : Type} {v : List α} {i : Int} {x : α} (y : α)
    (h : at_int v i = some x) : at_int (v.set i.toNat y) i = some y := by
  obtain ⟨h0, h1⟩ := at_int_nonneg h
  unfold at_int
  rw [if_pos h0]
  simp [h1]

theorem at_int_set_ne {α : Type} (v : List α) {i l : Int} (y : α) (h0 : 0 ≤ i) (hne : i ≠ l) :
    at_int (v.set i.toNat y) l = at_int v l := by
  unfold at_int
  by_cases hl : 0 ≤ l
  · rw [if_pos hl, if_pos hl]
    apply List.getElem?_set_ne
    intro hc
    apply hne
    have := Int.toNat_of_nonneg h0
    have := Int.toNat_of_nonneg hl
    omega
  · rw [if_neg hl, if_neg hl]

theorem is_interesting_ok_true {s : WriteLogRegistry} {version : Nat}
    (h : is_interesting s version = .ok true) :
    s.m_laziest_reader ≠ -1 ∧
      ∃ x, at_int s.m_interests s.m_laziest_reader = some x ∧ x.last_seen_version < version := by
  unfold is_interesting at h
  split at h
  · cases h
  · rename_i hl
    refine ⟨hl, ?_⟩
    split at h
    · cases h
    · rename_i x hx
      split at h
      · rename_i hv
        exact ⟨x, hx, hv⟩
      · cases h

theorem is_interesting_ok_false {s : WriteLogRegistry} {version : Nat}
    (h : is_interesting s version = .ok false) :
    s.m_laziest_reader = -1 ∨
      ∃ x, at_int s.m_interests s.m_laziest_reader = some x ∧ version ≤ x.last_seen_version := by
  unfold is_interesting at h
  split at h
  · rename_i hl; exact Or.inl hl
  · right
    split at h
    · cases h
    · rename_i x hx
      split at h
      · cases h
      · rename_i hv
        exact ⟨x, hx, by omega⟩

theorem assertion_forces_start (A O n last version : Nat) (hA1 : 1 ≤ A) (hAO : A ≤ O)
    (hhalf : O - A ≤ n / 2) (hTn : last + 1 = A + n) (hv : version < U64)
    (hlast : version = last + 1)
    (h : version = wadd 1 (wadd (wsub (wadd n (wsub O A)) 1) A)) : O = A := by
  unfold wadd wsub U64 at *
  omega

theorem inv_commit {s s1 : WriteLogRegistry} {last version : Nat} {data : Option Buffer}
    {sz : Nat} (hi : Inv s last) (h1 : 1 ≤ version) (hv : version < U64)
    (hlast : last = 0 ∨ version = last + 1) (h : add_commit s version data sz = .ok s1) :
    Inv s1 version := by
  obtain ⟨cs, A, O, ints, fl, lz⟩ := s
  obtain ⟨⟨hA, hOl, hT, hseen, hempty, hwin, htop, hlive⟩, hnone, hmin, hahead, hah⟩ := hi
  simp only at hA hOl hseen hempty hwin htop hlive hnone hmin hahead hah
  unfold add_commit at h
  cases hint : is_interesting ⟨cs, A, O, ints, fl, lz⟩ version with
  | error f => rw [hint] at h; cases h
  | ok b =>
    rw [hint] at h
    cases b with
    | false =>
      simp only at h
      cases h
      have hO : O = 0 := by
        by_contra hO
        obtain ⟨hne, hA1, hAO, hhalf, hTn⟩ := hwin hO
        have hlen : 0 < cs.length := List.length_pos.mpr hne
        rcases is_interesting_ok_false hint with hl | ⟨x, hx, hxv⟩
        · exact hne (hnone hl)
        · have := hah hO x hx
          clear hmin
          omega
      obtain ⟨hc, ha⟩ := hempty hO
      refine ⟨⟨hA, hOl, hv, hseen, hempty, fun h0 => absurd hO h0, ?_, hlive⟩,
        hnone, hmin, hahead, hah⟩
      intro _
      show O = A
      omega
    | true =>
      simp only at h
      obtain ⟨hl, x, hx, hxv⟩ := is_interesting_ok_true hint
      simp only at hl hx
      by_cases hO : O = 0
      · obtain ⟨hc, ha⟩ := hempty hO
        subst hc; subst ha; subst hO
        simp [TIGHTDB_ASSERT] at h
        subst h
        refine ⟨⟨hv, hv, hv, hseen, ?_, ?_, fun _ => rfl, ?_⟩, fun hc => absurd hc hl, hmin,
          ?_, ?_⟩
        · intro h0
          have h0 : version = 0 := h0
          omega
        · intro _
          exact ⟨by simp, h1, Nat.le_refl _, by simp, by simp⟩
        · intro i e hie _
          show version ≤ version + i
          omega
        · intro i e y hie _ hy
          have hy : at_int ints lz = some y := hy
          rw [hx] at hy
          cases hy
          show x.last_seen_version < version + i
          omega
        · intro _ y hy
          have hy : at_int ints lz = some y := hy
          rw [hx] at hy
          cases hy
          show x.last_seen_version < version + _
          omega
      · obtain ⟨hne, hA1, hAO, hhalf, hTn⟩ := hwin hO
        have hlen : 0 < cs.length := List.length_pos.mpr hne
        have hv1 : version = last + 1 := by clear hmin; omega
        by_cases hassert : version = wadd 1 (newest_version ⟨cs, A, O, ints, fl, lz⟩)
        · have hOA : O = A :=
            assertion_forces_start A O cs.length last version hA1 hAO hhalf hTn hv hv1 hassert
          subst hOA
          simp [TIGHTDB_ASSERT, hO, ← hassert] at h
          subst h
          refine ⟨⟨hA, hOl, hv, hseen, fun h0 => absurd h0 hO, ?_, fun _ => rfl, ?_⟩,
            fun hc => absurd hc hl, hmin, ?_, ?_⟩
          · intro _
            refine ⟨by simp, hA1, Nat.le_refl _, ?_, ?_⟩
            · show O - O ≤ _
              omega
            · show version + 1 = O + (cs ++ _).length
              simp only [List.length_append, List.length_singleton]
              omega
          · intro i e hie _
            show O ≤ O + i
            omega
          · intro i e y hie he hy
            have hy : at_int ints lz = some y := hy
            rw [hx] at hy
            cases hy
            show x.last_seen_version < O + i
            have hie : (cs ++ [(⟨sz, data⟩ : CommitEntry)])[i]? = some e := hie
            by_cases hil : i < cs.length
            · rw [List.getElem?_append_left hil] at hie
              exact hahead i e x hie he hx
            · have := lt_length_of_getElem?_eq_some hie
              simp only [List.length_append, List.length_singleton] at this
              omega
          · intro _ y hy
            have hy : at_int ints lz = some y := hy
            rw [hx] at hy
            cases hy
            show x.last_seen_version < O + (cs ++ _).length
            simp only [List.length_append, List.length_singleton]
            omega
        · simp [TIGHTDB_ASSERT, hO, hassert] at h

theorem window_of_interests {cs : List CommitEntry} {A O : Nat} {ints ints1 : List Interest}
    {fl lz : Int} (fl1 lz1 : Int) {last : Nat} (hw : Window ⟨cs, A, O, ints, fl, lz⟩ last)
    (hseen : ∀ (j : Nat) (x : Interest), ints1[j]? = some x → x.last_seen_version < U64) :
    Window ⟨cs, A, O, ints1, fl1, lz1⟩ last :=
  ⟨hw.start_lt, hw.oldest_lt, hw.last_lt, hseen, hw.empty, hw.window, hw.top, hw.live_window⟩

theorem start_pos_of_entry {s : WriteLogRegistry} {last : Nat} (hw : Window s last)
    {i : Nat} {e : CommitEntry} (h : s.m_commits[i]? = some e) :
    s.m_oldest_version ≠ 0 ∧ 1 ≤ s.m_array_start := by
  have hO : s.m_oldest_version ≠ 0 := by
    intro hO
    rw [(hw.empty hO).1] at h
    simp at h
  exact ⟨hO, (hw.window hO).2.1⟩

theorem inv_of_new_laziest {cs : List CommitEntry} {A O : Nat} {ints ints1 : List Interest}
    {fl fl1 lz lz1 : Int} {last : Nat} (hi : Inv ⟨cs, A, O, ints, fl, lz⟩ last)
    (hseen : ∀ (j : Nat) (x : Interest), ints1[j]? = some x → x.last_seen_version < U64)
    (hlz : lz1 ≠ -1) (hat : at_int ints1 lz1 = some ⟨0, -2⟩) :
    Inv ⟨cs, A, O, ints1, fl1, lz1⟩ last := by
  have hw := window_of_interests fl1 lz1 hi.toWindow hseen
  refine ⟨hw, fun hc => absurd hc hlz, ?_, ?_, ?_⟩
  · intro _
    exact ⟨⟨0, -2⟩, hat, rfl⟩
  · intro i e x hie _ hx
    have hx : at_int ints1 lz1 = some x := hx
    rw [hat] at hx
    cases hx
    have := (start_pos_of_entry hi.toWindow hie).2
    show 0 < A + i
    have : 1 ≤ A := this
    omega
  · intro hO x hx
    have hx : at_int ints1 lz1 = some x := hx
    rw [hat] at hx
    cases hx
    have := (hi.window hO).2.1
    show 0 < A + cs.length
    have : 1 ≤ A := this
    omega

theorem inv_register {s s1 : WriteLogRegistry} {last : Nat} {id : Int} (hi : Inv s last)
    (h : register_interest s = .ok (s1, id)) : Inv s1 last := by
  obtain ⟨cs, A, O, ints, fl, lz⟩ := s
  unfold register_interest at h
  simp only at h
  by_cases hfl : fl = -1
  · rw [if_neg (by simpa using hfl)] at h
    cases h
    apply inv_of_new_laziest hi
    · intro j x hj
      by_cases hjl : j < ints.length
      · rw [List.getElem?_append_left hjl] at hj
        exact hi.seen_lt j x hj
      · have := lt_length_of_getElem?_eq_some hj
        simp only [List.length_append, List.length_singleton] at this
        have hjj : j = ints.length := by omega
        subst hjj
        simp at hj
        subst hj
        decide
    · omega
    · have := at_int_length_append ints [] (⟨0, -2⟩ : Interest)
      simpa using this
  · rw [if_pos (by simpa using hfl)] at h
    cases hat : at_int ints fl with
    | none => rw [hat] at h; cases h
    | some head =>
      rw [hat] at h
      cases h
      apply inv_of_new_laziest hi
      · intro j x hj
        by_cases hjj : id.toNat = j
        · subst hjj
          rw [List.getElem?_set_self (at_int_nonneg hat).2] at hj
          cases hj
          decide
        · rw [List.getElem?_set_ne hjj] at hj
          exact hi.seen_lt j x hj
      · exact hfl
      · exact at_int_set_self _ hat

theorem inv_of_same_laziest {cs : List CommitEntry} {A O : Nat} {ints : List Interest}
    {fl lz id : Int} (fl1 : Int) {last : Nat} {slot : Interest} (y : Interest)
    (hi : Inv ⟨cs, A, O, ints, fl, lz⟩ last) (hat : at_int ints id = some slot)
    (hne : id ≠ lz) (hy : y.last_seen_version < U64) :
    Inv ⟨cs, A, O, ints.set id.toNat y, fl1, lz⟩ last := by
  obtain ⟨h0, hlt⟩ := at_int_nonneg hat
  have hsame : at_int (ints.set id.toNat y) lz = at_int ints lz := at_int_set_ne ints y h0 hne
  have hseen : ∀ (j : Nat) (x : Interest), (ints.set id.toNat y)[j]? = some x →
      x.last_seen_version < U64 := by
    intro j x hj
    by_cases hjj : id.toNat = j
    · subst hjj
      rw [List.getElem?_set_self hlt] at hj
      cases hj
      exact hy
    · rw [List.getElem?_set_ne hjj] at hj
      exact hi.seen_lt j x hj
  refine ⟨window_of_interests fl1 lz hi.toWindow hseen, hi.none_empty, ?_, ?_, ?_⟩
  · intro hl
    obtain ⟨x, hx1, hx2⟩ := hi.laziest_used hl
    refine ⟨x, ?_, hx2⟩
    show at_int (ints.set id.toNat y) lz = some x
    rw [hsame]; exact hx1
  · intro i e x hie he hx
    have hx : at_int (ints.set id.toNat y) lz = some x := hx
    rw [hsame] at hx
    exact hi.live_ahead i e x hie he hx
  · intro hO x hx
    have hx : at_int (ints.set id.toNat y) lz = some x := hx
    rw [hsame] at hx
    exact hi.ahead hO x hx

theorem window_set {cs : List CommitEntry} {A O : Nat} {ints : List Interest}
    {fl lz id : Int} (fl1 lz1 : Int) {last : Nat} {slot : Interest} (y : Interest)
    (hw : Window ⟨cs, A, O, ints, fl, lz⟩ last) (hat : at_int ints id = some slot)
    (hy : y.last_seen_version < U64) :
    Window ⟨cs, A, O, ints.set id.toNat y, fl1, lz1⟩ last := by
  obtain ⟨h0, hlt⟩ := at_int_nonneg hat
  apply window_of_interests fl1 lz1 hw
  intro j x hj
  by_cases hjj : id.toNat = j
  · subst hjj
    rw [List.getElem?_set_self hlt] at hj
    cases hj
    exact hy
  · rw [List.getElem?_set_ne hjj] at hj
    exact hw.seen_lt j x hj

theorem inv_unregister {s s1 : WriteLogRegistry} {last : Nat} {id : Int}
    (hi : Inv s last) (h : unregister_interest s id = .ok s1) : Inv s1 last := by
  obtain ⟨cs, A, O, ints, fl, lz⟩ := s
  unfold unregister_interest unregister_interest_with at h
  cases hat : at_int ints id with
  | none => simp only [hat] at h; cases h
  | some slot =>
    have hslot := hi.seen_lt id.toNat slot (by
      have := hat
      unfold at_int at this
      rwa [if_pos (at_int_nonneg hat).1] at this)
    simp only [hat] at h
    by_cases hl : id = lz
    · rw [if_pos hl] at h
      exact cleanup_inv _ _ _
        (window_set id lz ⟨slot.last_seen_version, fl⟩ hi.toWindow hat hslot) h
    · rw [if_neg hl] at h
      cases h
      exact inv_of_same_laziest id _ hi hat hl hslot

theorem inv_release {s s1 : WriteLogRegistry} {last to_v : Nat} {id : Int}
    (hi : Inv s last) (hlt : to_v < U64)
    (h : release_commit_entries s id to_v = .ok s1) : Inv s1 last := by
  obtain ⟨cs, A, O, ints, fl, lz⟩ := s
  unfold release_commit_entries release_commit_entries_with at h
  cases hat : at_int ints id with
  | none => simp only [hat] at h; cases h
  | some slot =>
    simp only [hat] at h
    by_cases hl : id = lz
    · rw [if_pos hl] at h
      exact cleanup_inv _ _ _
        (window_set fl lz ⟨to_v, slot.next_free_entry⟩ hi.toWindow hat hlt) h
    · rw [if_neg hl] at h
      cases h
      exact inv_of_same_laziest fl _ hi hat hl hlt

theorem inv_init : Inv .init 0 :=
  inv_of_empty [] (-1) (-1) 0 (by decide) (fun j x hj => by simp at hj)
    (fun hc => absurd rfl hc)

theorem reachable_inv {s : WriteLogRegistry} {last : Nat} (hr : Reachable s last) :
    Inv s last := by
  induction hr with
  | init => exact inv_init
  | commit _ h1 hv hlast h ih => exact inv_commit ih h1 hv hlast h
  | register _ h ih => exact inv_register ih h
  | unregister _ h ih => exact inv_unregister ih h
  | release _ hlt h ih => exact inv_release ih hlt h

/-- C10.  In every state reached from a fresh registry by calls that return without a
fault (commits consecutive), if `m` is at most the `last_seen_version` of every slot in
use - in particular if `m` is their minimum - then every entry of the commit array that
still holds data stands for a version strictly above `m`; so no version with live data
is smaller than `m`. -/
theorem live_versions_above_minimum {s : WriteLogRegistry} {last : Nat}
    (hr : Reachable s last) (i : Nat) (e : CommitEntry) (m : Nat)
    (hlive : s.m_commits[i]? = some e) (hdata : e.data ≠ none)
    (hmin : ∀ (j : Nat) (x : Interest), s.m_interests[j]? = some x →
      x.next_free_entry = -2 → m ≤ x.last_seen_version) :
    m < to_version s i := by
  have hi := reachable_inv hr
  have hne : s.m_commits ≠ [] := by
    intro hc
    rw [hc] at hlive
    simp at hlive
  have hl : s.m_laziest_reader ≠ -1 := fun hc => hne (hi.none_empty hc)
  obtain ⟨x, hx1, hx2⟩ := hi.laziest_used hl
  have hx : s.m_interests[s.m_laziest_reader.toNat]? = some x := by
    have := hx1
    unfold at_int at this
    rwa [if_pos (at_int_nonneg hx1).1] at this
  have h1 := hmin _ x hx hx2
  have h2 := hi.live_ahead i e x hlive hdata hx1
  obtain ⟨hO, _⟩ := start_pos_of_entry hi.toWindow hlive
  obtain ⟨_, _, _, _, hTn⟩ := hi.window hO
  have h3 := lt_length_of_getElem?_eq_some hlive
  have h4 := hi.last_lt
  have hv : to_version s i = s.m_array_start + i := by
    unfold to_version
    rw [wadd_of_lt (by omega)]
    omega
  omega

/-- Witness of C10: one reader, versions 1 and 2 committed, version 1 released.  The
minimum is 1 and the only entry that holds data is that of version 2. -/
theorem live_versions_above_minimum_witness :
    Reachable (.mk [⟨0, none⟩, ⟨1, some [2]⟩] 1 2 [⟨1, -2⟩] (-1) 0) 2
      ∧ (WriteLogRegistry.mk [⟨0, none⟩, ⟨1, some [2]⟩] 1 2 [⟨1, -2⟩] (-1) 0).m_commits[1]?
          = some ⟨1, some [2]⟩
      ∧ (CommitEntry.mk 1 (some [2])).data ≠ none
      ∧ (∀ (j : Nat) (x : Interest),
          (WriteLogRegistry.mk [⟨0, none⟩, ⟨1, some [2]⟩] 1 2 [⟨1, -2⟩] (-1) 0).m_interests[j]?
            = some x → x.next_free_entry = -2 → 1 ≤ x.last_seen_version)
      ∧ 1 < to_version (.mk [⟨0, none⟩, ⟨1, some [2]⟩] 1 2 [⟨1, -2⟩] (-1) 0) 1 :=
  have hr : Reachable (.mk [⟨0, none⟩, ⟨1, some [2]⟩] 1 2 [⟨1, -2⟩] (-1) 0) 2 :=
    Reachable.release
      (Reachable.commit
        (Reachable.commit
          (Reachable.register Reachable.init
            (show register_interest .init = .ok (.mk [] 0 0 [⟨0, -2⟩] (-1) 0, 0) by decide))
          (by decide) (by decide) (Or.inl rfl)
          (show add_commit (.mk [] 0 0 [⟨0, -2⟩] (-1) 0) 1 (some [1]) 1
            = .ok (.mk [⟨1, some [1]⟩] 1 1 [⟨0, -2⟩] (-1) 0) by decide))
        (by decide) (by decide) (Or.inr rfl)
        (show add_commit (.mk [⟨1, some [1]⟩] 1 1 [⟨0, -2⟩] (-1) 0) 2 (some [2]) 1
          = .ok (.mk [⟨1, some [1]⟩, ⟨1, some [2]⟩] 1 1 [⟨0, -2⟩] (-1) 0) by decide))
      (by decide)
      (show release_commit_entries (.mk [⟨1, some [1]⟩, ⟨1, some [2]⟩] 1 1 [⟨0, -2⟩] (-1) 0)
          0 1 = .ok (.mk [⟨0, none⟩, ⟨1, some [2]⟩] 1 2 [⟨1, -2⟩] (-1) 0) by decide)
  have hmin : ∀ (j : Nat) (x : Interest),
      (WriteLogRegistry.mk [⟨0, none⟩, ⟨1, some [2]⟩] 1 2 [⟨1, -2⟩] (-1) 0).m_interests[j]?
        = some x → x.next_free_entry = -2 → 1 ≤ x.last_seen_version := by
    intro j x hj _
    cases j with
    | zero =>
      simp at hj
      subst hj
      decide
    | succ j => simp at hj
  ⟨hr, by decide, by decide, hmin,
    live_versions_above_minimum hr 1 ⟨1, some [2]⟩ 1 (by decide) (by decide) hmin⟩

/-! ## Evaluations for the garbage collector -/

/-- C12 (failing input).  Reader 0 registers, versions 1..4 are committed and retained, and
the reader releases version 2: versions 1 and 2 are freed, `m_oldest_version` becomes 3
and the array keeps its four elements.  Slot 0 is the only slot in use.
`unregister_interest(0)` finds no reader, takes `last_to_clean = newest_version()`, which
is 6 instead of 4, and the freeing loop goes on to version 5, that is to `m_commits[4]` of
a vector of four elements; the store is not left empty. -/
theorem last_reader_leaving_overruns_array :
    run .init [.register, .commit 1 (some [1]) 1, .commit 2 (some [2]) 1,
          .commit 3 (some [3]) 1, .commit 4 (some [4]) 1, .release 0 2]
        = .ok (.mk [⟨0, none⟩, ⟨0, none⟩, ⟨1, some [3]⟩, ⟨1, some [4]⟩] 1 3 [⟨2, -2⟩] (-1) 0)
      ∧ newest_version
          (.mk [⟨0, none⟩, ⟨0, none⟩, ⟨1, some [3]⟩, ⟨1, some [4]⟩] 1 3 [⟨2, -2⟩] (-1) 0) = 6
      ∧ to_index
          (.mk [⟨0, none⟩, ⟨0, none⟩, ⟨1, some [3]⟩, ⟨1, some [4]⟩] 1 3 [⟨2, -2⟩] (-1) 0) 5 = 4
      ∧ unregister_interest
          (.mk [⟨0, none⟩, ⟨0, none⟩, ⟨1, some [3]⟩, ⟨1, some [4]⟩] 1 3 [⟨2, -2⟩] (-1) 0) 0
          = .error .out_of_bounds := by
  decide

/-- C15 (failing input).  Reader 0 registers, versions 1, 2, 3 are committed and the
reader releases version 1: the store is not reset, `m_array_start = 1`,
`m_oldest_version = 2`, the array has three elements, but `newest_version()` is 4, so the
array does not cover `m_array_start .. newest_version()` and its length is not
`newest_version() - m_array_start + 1 = 4`.  Readers 1 and 2 then register and reader 2
unregisters: the cleanup, which does not reset the store, moves `m_oldest_version` from 2
back to 1, a version whose entry has been freed. -/
theorem version_window_broken_by_cleanup :
    run .init [.register, .commit 1 (some [1]) 1, .commit 2 (some [2]) 1,
          .commit 3 (some [3]) 1, .release 0 1]
        = .ok (.mk [⟨0, none⟩, ⟨1, some [2]⟩, ⟨1, some [3]⟩] 1 2 [⟨1, -2⟩] (-1) 0)
      ∧ newest_version
          (.mk [⟨0, none⟩, ⟨1, some [2]⟩, ⟨1, some [3]⟩] 1 2 [⟨1, -2⟩] (-1) 0) = 4
      ∧ (WriteLogRegistry.mk [⟨0, none⟩, ⟨1, some [2]⟩, ⟨1, some [3]⟩] 1 2 [⟨1, -2⟩] (-1)
          0).m_commits.length = 3
      ∧ run (.mk [⟨0, none⟩, ⟨1, some [2]⟩, ⟨1, some [3]⟩] 1 2 [⟨1, -2⟩] (-1) 0)
          [.register, .register]
          = .ok (.mk [⟨0, none⟩, ⟨1, some [2]⟩, ⟨1, some [3]⟩] 1 2
              [⟨1, -2⟩, ⟨0, -2⟩, ⟨0, -2⟩] (-1) 2)
      ∧ unregister_interest (.mk [⟨0, none⟩, ⟨1, some [2]⟩, ⟨1, some [3]⟩] 1 2
              [⟨1, -2⟩, ⟨0, -2⟩, ⟨0, -2⟩] (-1) 2) 2
          = .ok (.mk [⟨0, none⟩, ⟨1, some [2]⟩, ⟨1, some [3]⟩] 1 1
              [⟨1, -2⟩, ⟨0, -2⟩, ⟨0, -1⟩] 2 1) := by
  decide

/-- C16 (failing input).  A reader registers (id 0), a second one registers (id 1) and
unregisters again while no commit is retained.  `cleanup` starts its scan with
`earliest = newest_version() + 1 = 0`, so slot 0, in use with `last_seen_version = 0`, is
not below it: `m_laziest_reader` is `-1` although a slot is in use. -/
theorem watermark_none_with_reader_in_use :
    register_interest .init = .ok (.mk [] 0 0 [⟨0, -2⟩] (-1) 0, 0)
      ∧ register_interest (.mk [] 0 0 [⟨0, -2⟩] (-1) 0)
          = .ok (.mk [] 0 0 [⟨0, -2⟩, ⟨0, -2⟩] (-1) 1, 1)
      ∧ wadd (newest_version (.mk [] 0 0 [⟨0, -2⟩, ⟨0, -1⟩] 1 1)) 1 = 0
      ∧ unregister_interest (.mk [] 0 0 [⟨0, -2⟩, ⟨0, -2⟩] (-1) 1) 1
          = .ok (.mk [] 0 0 [⟨0, -2⟩, ⟨0, -1⟩] 1 (-1))
      ∧ (WriteLogRegistry.mk [] 0 0 [⟨0, -2⟩, ⟨0, -1⟩] 1 (-1)).m_interests[0]?
          = some ⟨0, -2⟩ := by
  decide

/-- C17 (failing input).  Three entries for versions 1..3 are held, the readers have
released 2 and 3.  `cleanup` frees versions 1 and 2, sets `m_oldest_version = 3` and takes
the compaction branch with `copy_start_idx = 2`: the copy runs up to `&m_commits[4]`, so
it reads `m_commits[3]`, outside the vector.  If that read is let through and finds
an entry, here `(7, [7])`, the array is resized to `3 - 2 + 1 = 2` elements, one more than
the single retained version, and the stray entry stands at the index of version 4. -/
theorem compaction_keeps_one_entry_too_many :
    cleanup (.mk [⟨1, some [1]⟩, ⟨1, some [2]⟩, ⟨1, some [3]⟩] 1 1 [⟨2, -2⟩, ⟨3, -2⟩] (-1) 1)
        = .error .out_of_bounds
      ∧ cleanup_with (some ⟨7, some [7]⟩)
          (.mk [⟨1, some [1]⟩, ⟨1, some [2]⟩, ⟨1, some [3]⟩] 1 1 [⟨2, -2⟩, ⟨3, -2⟩] (-1) 1)
          = .ok (.mk [⟨1, some [3]⟩, ⟨7, some [7]⟩] 3 3 [⟨2, -2⟩, ⟨3, -2⟩] (-1) 0)
      ∧ cleanup_with (some ⟨0, none⟩)
          (.mk [⟨1, some [1]⟩, ⟨1, some [2]⟩, ⟨1, some [3]⟩] 1 1 [⟨2, -2⟩, ⟨3, -2⟩] (-1) 1)
          = .ok (.mk [⟨1, some [3]⟩, ⟨0, none⟩] 3 3 [⟨2, -2⟩, ⟨3, -2⟩] (-1) 0) := by
  decide

/-- C19 (failing input).  In the scenario register, commits 1..3, register, release(0, 2),
the call `release_commit_entries(1, 3)` runs `cleanup` into the compaction branch:
`copy_loop` from position 2 to position `size() + 1 = 4` reads position 3 of a vector of
length 3.  After register, commits 1..4, release(0, 2), the call `unregister_interest(0)`
runs the freeing loop up to `newest_version() = 6`, that is to index 4 of a vector of
length 4.  After commit 1 (dropped), register, commit 2, register, the call
`unregister_interest(1)` sets `m_oldest_version = 1` below `m_array_start = 2`, and
`to_index(1)` underflows to `2 ^ 64 - 1`. -/
theorem cleanup_accesses_outside_array :
    run .init [.register, .commit 1 (some [1]) 1, .commit 2 (some [2]) 1,
          .commit 3 (some [3]) 1, .register, .release 0 2]
        = .ok (.mk [⟨1, some [1]⟩, ⟨1, some [2]⟩, ⟨1, some [3]⟩] 1 1
            [⟨2, -2⟩, ⟨0, -2⟩] (-1) 1)
      ∧ cleanup (.mk [⟨1, some [1]⟩, ⟨1, some [2]⟩, ⟨1, some [3]⟩] 1 1
            [⟨2, -2⟩, ⟨3, -2⟩] (-1) 1) = .error .out_of_bounds
      ∧ copy_loop none 5 2 4 0 [⟨0, none⟩, ⟨0, none⟩, ⟨1, some [3]⟩] = .error .out_of_bounds
      ∧ run .init [.register, .commit 1 (some [1]) 1, .commit 2 (some [2]) 1,
            .commit 3 (some [3]) 1, .commit 4 (some [4]) 1, .release 0 2, .unregister 0]
          = .error .out_of_bounds
      ∧ cleanup_free 1 5 3 6 [⟨0, none⟩, ⟨0, none⟩, ⟨1, some [3]⟩, ⟨1, some [4]⟩]
          = .error .out_of_bounds
      ∧ run .init [.commit 1 (some [1]) 1, .register, .commit 2 (some [2]) 1, .register,
            .unregister 1] = .error .out_of_bounds
      ∧ to_index (.mk [⟨1, some [2]⟩] 2 1 [⟨0, -2⟩, ⟨0, -1⟩] 1 0) 1 = U64 - 1 := by
  decide

/-! ## No watermark, nothing retained -/

theorem idle_cleanup (p : Option CommitEntry) (s s1 : WriteLogRegistry)
    (h2 : s.m_oldest_version = 0 → s.m_commits = [] ∧ s.m_array_start = 0)
    (h : cleanup_with p s = .ok s1) :
    (s1.m_laziest_reader = -1 → s1.m_oldest_version = 0)
      ∧ (s1.m_oldest_version = 0 → s1.m_commits = [] ∧ s1.m_array_start = 0) := by
  obtain ⟨cs, A, O, ints, fl, lz⟩ := s
  simp only at h2
  have hscan := cleanup_scan_spec (wadd (newest_version ⟨cs, A, O, ints, fl, lz⟩) 1) ints [] (-1)
    (wadd (newest_version ⟨cs, A, O, ints, fl, lz⟩) 1) (by simp) (Nat.le_refl _) (by simp)
  simp only [List.nil_append, List.length_nil] at hscan
  unfold cleanup_with at h
  simp only [newest_version, to_index, to_version] at h hscan
  generalize hr : cleanup_scan ints 0 (-1) (wadd (wadd (wsub (wadd cs.length (wsub O A)) 1) A) 1)
    = r at h hscan
  obtain ⟨lz1, M⟩ := r
  simp only at h hscan
  obtain ⟨_, hlz⟩ := hscan
  by_cases hO : O = 0
  · rw [if_pos hO] at h
    cases h
    exact ⟨fun _ => hO, h2⟩
  · rw [if_neg hO] at h
    by_cases hl1 : lz1 = -1
    · simp only [hl1, if_true, true_or] at h
      split at h
      · cases h
      · cases h
        exact ⟨fun _ => rfl, fun _ => ⟨rfl, rfl⟩⟩
    · simp only [if_neg hl1, false_or] at h
      obtain ⟨x, _, _, _, hx4⟩ := hlz hl1
      have hMU : M + 1 < U64 := by
        have := wadd_lt (wadd (wsub (wadd cs.length (wsub O A)) 1) A) 1
        omega
      have hw1 : wadd M 1 = M + 1 := wadd_of_lt hMU
      rw [hw1] at h
      split at h
      · cases h
      · split at h
        · cases h
          exact ⟨fun _ => rfl, fun _ => ⟨rfl, rfl⟩⟩
        · split at h
          · split at h
            · cases h
            · cases h
              refine ⟨fun hc => absurd hc hl1, fun hc => ?_⟩
              have hc : M + 1 = 0 := hc
              omega
          · cases h
            refine ⟨fun hc => absurd hc hl1, fun hc => ?_⟩
            have hc : M + 1 = 0 := hc
            omega

theorem idle_call (p : Option CommitEntry) (s s1 : WriteLogRegistry) (c : Call)
    (h1 : s.m_laziest_reader = -1 → s.m_oldest_version = 0)
    (h2 : s.m_oldest_version = 0 → s.m_commits = [] ∧ s.m_array_start = 0)
    (h : call_with p s c = .ok s1) :
    (s1.m_laziest_reader = -1 → s1.m_oldest_version = 0)
      ∧ (s1.m_oldest_version = 0 → s1.m_commits = [] ∧ s1.m_array_start = 0) := by
  cases c with
  | commit version data sz =>
    simp only [call_with] at h
    unfold add_commit at h
    cases hint : is_interesting s version with
    | error f => rw [hint] at h; cases h
    | ok b =>
      rw [hint] at h
      cases b with
      | false =>
        simp only at h
        cases h
        exact ⟨h1, h2⟩
      | true =>
        simp only at h
        obtain ⟨hl, x, _, hxv⟩ := is_interesting_ok_true hint
        split at h
        · cases h
        · cases h
          by_cases hO : s.m_oldest_version = 0
          · rw [if_pos hO]
            refine ⟨fun hc => absurd hc hl, fun hc => ?_⟩
            have hc : version = 0 := hc
            omega
          · rw [if_neg hO]
            exact ⟨fun hc => absurd hc hl, fun hc => absurd hc hO⟩
  | register =>
    simp only [call_with] at h
    unfold register_interest at h
    by_cases hfl : s.m_interest_free_list = -1
    · rw [if_neg (by simpa using hfl)] at h
      simp only at h
      cases h
      refine ⟨fun hc => ?_, h2⟩
      have hc : ((s.m_interests.length + 1 : Nat) : Int) - 1 = -1 := hc
      omega
    · rw [if_pos (by simpa using hfl)] at h
      simp only at h
      cases hat : at_int s.m_interests s.m_interest_free_list with
      | none => rw [hat] at h; cases h
      | some head =>
        rw [hat] at h
        cases h
        exact ⟨fun hc => absurd hc hfl, h2⟩
  | unregister id =>
    simp only [call_with] at h
    unfold unregister_interest_with at h
    split at h
    · cases h
    · simp only at h
      split at h
      · refine idle_cleanup p _ s1 ?_ h
        exact h2
      · cases h
        exact ⟨h1, h2⟩
  | release id to_v =>
    simp only [call_with] at h
    unfold release_commit_entries_with at h
    split at h
    · cases h
    · simp only at h
      split at h
      · refine idle_cleanup p _ s1 ?_ h
        exact h2
      · cases h
        exact ⟨h1, h2⟩

theorem idle_run (p : Option CommitEntry) (calls : List Call) :
    ∀ s s1 : WriteLogRegistry,
      (s.m_laziest_reader = -1 → s.m_oldest_version = 0) →
      (s.m_oldest_version = 0 → s.m_commits = [] ∧ s.m_array_start = 0) →
      run_with p s calls = .ok s1 →
      (s1.m_laziest_reader = -1 → s1.m_oldest_version = 0)
        ∧ (s1.m_oldest_version = 0 → s1.m_commits = [] ∧ s1.m_array_start = 0) := by
  induction calls with
  | nil =>
    intro s s1 h1 h2 h
    simp only [run_with] at h
    cases h
    exact ⟨h1, h2⟩
  | cons c rest ih =>
    intro s s1 h1 h2 h
    simp only [run_with] at h
    cases hc : call_with p s c with
    | error f => rw [hc] at h; cases h
    | ok s2 =>
      rw [hc] at h
      obtain ⟨h3, h4⟩ := idle_call p s s2 c h1 h2 hc
      exact ih s2 s1 h3 h4 h

/-- C18.  In every state reached from a fresh registry by any sequence of calls that
return without a fault - whatever a read one past the end of the commit array yields
there - `m_laziest_reader == -1` implies `m_oldest_version == 0`, `m_array_start == 0`
and a commit array of length 0. -/
theorem no_watermark_store_empty (p : Option CommitEntry) (calls : List Call)
    (s : WriteLogRegistry) (hrun : run_with p .init calls = .ok s)
    (hl : s.m_laziest_reader = -1) :
    s.m_oldest_version = 0 ∧ s.m_array_start = 0 ∧ s.m_commits.length = 0 := by
  obtain ⟨h1, h2⟩ := idle_run p calls .init s (fun _ => rfl) (fun _ => ⟨rfl, rfl⟩) hrun
  have hO := h1 hl
  obtain ⟨hc, ha⟩ := h2 hO
  exact ⟨hO, ha, by rw [hc]; rfl⟩

/-- Witness of C18: a reader registers, versions 1 and 2 are retained, the reader
unregisters. -/
theorem no_watermark_store_empty_witness :
    run_with none .init
        [.register, .commit 1 (some [1]) 1, .commit 2 (some [2]) 1, .unregister 0]
        = .ok (.mk [] 0 0 [⟨0, -1⟩] 0 (-1))
      ∧ (WriteLogRegistry.mk [] 0 0 [⟨0, -1⟩] 0 (-1)).m_laziest_reader = -1
      ∧ (WriteLogRegistry.mk [] 0 0 [⟨0, -1⟩] 0 (-1)).m_oldest_version = 0
      ∧ (WriteLogRegistry.mk [] 0 0 [⟨0, -1⟩] 0 (-1)).m_array_start = 0
      ∧ (WriteLogRegistry.mk [] 0 0 [⟨0, -1⟩] 0 (-1)).m_commits.length = 0 :=
  ⟨by decide, by decide,
    no_watermark_store_empty none
      [.register, .commit 1 (some [1]) 1, .commit 2 (some [2]) 1, .unregister 0]
      (.mk [] 0 0 [⟨0, -1⟩] 0 (-1)) (by decide) (by decide)⟩

/-! ## The free list of interest slots -/

theorem cleanup_with_interests (p : Option CommitEntry) (s s1 : WriteLogRegistry)
    (h : cleanup_with p s = .ok s1) :
    s1.m_interests = s.m_interests ∧ s1.m_interest_free_list = s.m_interest_free_list := by
  obtain ⟨cs, A, O, ints, fl, lz⟩ := s
  unfold cleanup_with at h
  simp only [newest_version, to_index, to_version] at h
  generalize cleanup_scan ints 0 (-1) (wadd (wadd (wsub (wadd cs.length (wsub O A)) 1) A) 1)
    = r at h
  obtain ⟨lz1, M⟩ := r
  simp only at h
  by_cases hO : O = 0
  · rw [if_pos hO] at h
    cases h
    exact ⟨rfl, rfl⟩
  · rw [if_neg hO] at h
    by_cases hl1 : lz1 = -1
    · simp only [hl1, if_true, true_or] at h
      split at h
      · cases h
      · cases h
        exact ⟨rfl, rfl⟩
    · simp only [if_neg hl1, false_or] at h
      split at h
      · cases h
      · split at h
        · cases h
          exact ⟨rfl, rfl⟩
        · split at h
          · split at h
            · cases h
            · cases h
              exact ⟨rfl, rfl⟩
          · cases h
            exact ⟨rfl, rfl⟩

theorem add_commit_interests {s s1 : WriteLogRegistry} {version : Nat} {data : Option Buffer}
    {sz : Nat} (h : add_commit s version data sz = .ok s1) :
    s1.m_interests = s.m_interests ∧ s1.m_interest_free_list = s.m_interest_free_list := by
  unfold add_commit at h
  split at h
  · cases h
  · cases h; exact ⟨rfl, rfl⟩
  · split at h
    · cases h
    · cases h
      split <;> exact ⟨rfl, rfl⟩

theorem free_chain_lt {links : List Int} {head : Int} {l : List Nat}
    (h : FreeChain links head l) : ∀ j ∈ l, j < links.length := by
  induction h with
  | done => intro j hj; simp at hj
  | step hget _ ih =>
    intro k hk
    rcases List.mem_cons.mp hk with hk | hk
    · subst hk; exact lt_length_of_getElem?_eq_some hget
    · exact ih k hk

theorem free_chain_frame {links links1 : List Int} {head : Int} {l : List Nat}
    (h : FreeChain links head l) (hsame : ∀ j ∈ l, links1[j]? = links[j]?) :
    FreeChain links1 head l := by
  induction h with
  | done => exact FreeChain.done
  | step hget _ ih =>
    refine FreeChain.step ?_ (ih fun k hk => hsame k (List.mem_cons_of_mem _ hk))
    rw [hsame _ (List.mem_cons_self _ _)]
    exact hget

theorem free_chain_head {links : List Int} {head : Int} {l : List Nat}
    (h : FreeChain links head l) : head = -1 ∨ 0 ≤ head := by
  cases h with
  | done => exact Or.inl rfl
  | step _ _ => exact Or.inr (Int.ofNat_nonneg _)

theorem free_list_ok_of_links {s s1 : WriteLogRegistry} (h : FreeListOk s)
    (h1 : next_links s1 = next_links s)
    (h2 : s1.m_interest_free_list = s.m_interest_free_list) : FreeListOk s1 := by
  unfold FreeListOk at *
  rw [h1, h2]
  exact h

theorem free_list_ok_register {s s1 : WriteLogRegistry} {id : Int} (h : FreeListOk s)
    (hr : register_interest s = .ok (s1, id)) : FreeListOk s1 := by
  obtain ⟨cs, A, O, ints, fl, lz⟩ := s
  obtain ⟨l, hchain, hnodup, hmem⟩ := h
  simp only [next_links] at hchain hmem
  unfold register_interest at hr
  simp only at hr
  by_cases hfl : fl = -1
  · rw [if_neg (by simpa using hfl)] at hr
    cases hr
    subst hfl
    have hl : l = [] := by
      cases hchain with
      | done => rfl
    subst hl
    refine ⟨[], ?_, List.nodup_nil, ?_⟩
    · exact FreeChain.done
    · intro j next hj
      simp only [next_links, List.map_append, List.map_cons, List.map_nil] at hj
      by_cases hjl : j < (ints.map Interest.next_free_entry).length
      · rw [List.getElem?_append_left hjl] at hj
        exact hmem j next hj
      · have := lt_length_of_getElem?_eq_some hj
        simp only [List.length_append, List.length_singleton] at this
        have hjj : j = (ints.map Interest.next_free_entry).length := by omega
        subst hjj
        simp at hj
        subst hj
        simp
  · rw [if_pos (by simpa using hfl)] at hr
    cases hat : at_int ints fl with
    | none => rw [hat] at hr; cases hr
    | some head =>
      rw [hat] at hr
      cases hr
      obtain ⟨h0, hlt⟩ := at_int_nonneg hat
      cases hchain with
      | done => exact absurd rfl hfl
      | @step j next l1 hget hrest =>
        have hj : (j : Int).toNat = j := Int.toNat_ofNat j
        have hhead : head.next_free_entry = next := by
          unfold at_int at hat
          rw [if_pos h0, hj] at hat
          rw [List.getElem?_map, hat] at hget
          simpa using hget
        obtain ⟨hjl, hnd1⟩ := List.nodup_cons.mp hnodup
        refine ⟨l1, ?_, hnd1, ?_⟩
        · show FreeChain (next_links _) head.next_free_entry l1
          rw [hhead]
          apply free_chain_frame hrest
          intro k hk
          simp only [next_links, List.map_set, hj]
          apply List.getElem?_set_ne
          intro hc
          subst hc
          exact hjl hk
        · intro k nk hk
          simp only [next_links, List.map_set, hj] at hk
          by_cases hkj : j = k
          · subst hkj
            rw [List.getElem?_set_self (by simpa using hlt)] at hk
            cases hk
            simp [hjl]
          · rw [List.getElem?_set_ne hkj] at hk
            rw [← hmem k nk hk]
            simp [List.mem_cons, Ne.symm hkj]

theorem free_list_ok_unregister_set {cs : List CommitEntry} {A O : Nat} {ints : List Interest}
    {fl lz id : Int} {slot : Interest} (h : FreeListOk ⟨cs, A, O, ints, fl, lz⟩)
    (hat : at_int ints id = some slot) (huse : slot.next_free_entry = -2) :
    FreeListOk ⟨cs, A, O, ints.set id.toNat ⟨slot.last_seen_version, fl⟩, id, lz⟩ := by
  obtain ⟨l, hchain, hnodup, hmem⟩ := h
  simp only [next_links] at hchain hmem
  obtain ⟨h0, hlt⟩ := at_int_nonneg hat
  have hslot : (ints.map Interest.next_free_entry)[id.toNat]? = some (-2) := by
    unfold at_int at hat
    rw [if_pos h0] at hat
    rw [List.getElem?_map, hat]
    simp [huse]
  have hnot : id.toNat ∉ l := by
    intro hc
    exact (hmem _ _ hslot).mp hc rfl
  have hfl2 : fl ≠ -2 := by
    rcases free_chain_head hchain with h1 | h1 <;> omega
  refine ⟨id.toNat :: l, ?_, List.nodup_cons.mpr ⟨hnot, hnodup⟩, ?_⟩
  · have hid : ((id.toNat : Nat) : Int) = id := Int.toNat_of_nonneg h0
    show FreeChain (next_links _) id (id.toNat :: l)
    rw [← hid]
    simp only [next_links, List.map_set, Int.toNat_ofNat]
    refine @FreeChain.step _ id.toNat fl l ?_ ?_
    · rw [List.getElem?_set_self (by simpa using hlt)]
    · apply free_chain_frame hchain
      intro k hk
      apply List.getElem?_set_ne
      intro hc
      subst hc
      exact hnot hk
  · intro k nk hk
    simp only [next_links, List.map_set] at hk
    by_cases hkj : id.toNat = k
    · subst hkj
      rw [List.getElem?_set_self (by simpa using hlt)] at hk
      cases hk
      simp [hfl2]
    · rw [List.getElem?_set_ne hkj] at hk
      rw [← hmem k nk hk]
      simp [List.mem_cons, Ne.symm hkj]

theorem free_list_ok_unregister {s s1 : WriteLogRegistry} {id : Int} {slot : Interest}
    (h : FreeListOk s) (hat : at_int s.m_interests id = some slot)
    (huse : slot.next_free_entry = -2) (hu : unregister_interest s id = .ok s1) :
    FreeListOk s1 := by
  obtain ⟨cs, A, O, ints, fl, lz⟩ := s
  have hat : at_int ints id = some slot := hat
  have hset := free_list_ok_unregister_set h hat huse
  unfold unregister_interest unregister_interest_with at hu
  simp only [hat] at hu
  split at hu
  · obtain ⟨h1, h2⟩ := cleanup_with_interests none _ _ hu
    exact free_list_ok_of_links hset (by simp only [next_links, h1]) h2
  · cases hu
    exact hset

theorem free_list_ok_release {s s1 : WriteLogRegistry} {id : Int} {to_v : Nat}
    (h : FreeListOk s) (hr : release_commit_entries s id to_v = .ok s1) : FreeListOk s1 := by
  obtain ⟨cs, A, O, ints, fl, lz⟩ := s
  unfold release_commit_entries release_commit_entries_with at hr
  cases hat : at_int ints id with
  | none => simp only [hat] at hr; cases hr
  | some slot =>
    simp only [hat] at hr
    obtain ⟨h0, hlt⟩ := at_int_nonneg hat
    have hlinks : (ints.set id.toNat ⟨to_v, slot.next_free_entry⟩).map Interest.next_free_entry
        = ints.map Interest.next_free_entry := by
      rw [List.map_set]
      apply List.ext_getElem?
      intro k
      by_cases hk : id.toNat = k
      · subst hk
        rw [List.getElem?_set_self (by simpa using hlt), List.getElem?_map]
        unfold at_int at hat
        rw [if_pos h0] at hat
        rw [hat]
        rfl
      · rw [List.getElem?_set_ne hk]
    split at hr
    · obtain ⟨h1, h2⟩ := cleanup_with_interests none _ _ hr
      exact free_list_ok_of_links h (by simp only [next_links, h1]; exact hlinks) h2
    · cases hr
      exact free_list_ok_of_links h (by simp only [next_links]; exact hlinks) rfl

theorem free_list_ok_init : FreeListOk .init :=
  ⟨[], FreeChain.done, List.nodup_nil, fun j next hj => by simp [next_links, WriteLogRegistry.init] at hj⟩

theorem slots_reachable_free_list_ok {s : WriteLogRegistry} (h : SlotsReachable s) :
    FreeListOk s := by
  induction h with
  | init => exact free_list_ok_init
  | register _ hr ih => exact free_list_ok_register ih hr
  | unregister _ hat huse hu ih => exact free_list_ok_unregister ih hat huse hu
  | commit _ hc ih =>
    obtain ⟨h1, h2⟩ := add_commit_interests hc
    exact free_list_ok_of_links ih (by simp only [next_links, h1]) h2
  | release _ hr ih => exact free_list_ok_release ih hr

theorem register_after_unregister {s s1 : WriteLogRegistry} {id : Int}
    (hu : unregister_interest s id = .ok s1) : ∃ s2, register_interest s1 = .ok (s2, id) := by
  obtain ⟨cs, A, O, ints, fl, lz⟩ := s
  unfold unregister_interest unregister_interest_with at hu
  cases hat : at_int ints id with
  | none => simp only [hat] at hu; cases hu
  | some slot =>
    simp only [hat] at hu
    obtain ⟨h0, hlt⟩ := at_int_nonneg hat
    have hs1 : s1.m_interests = ints.set id.toNat ⟨slot.last_seen_version, fl⟩
        ∧ s1.m_interest_free_list = id := by
      split at hu
      · exact cleanup_with_interests none _ _ hu
      · cases hu
        exact ⟨rfl, rfl⟩
    obtain ⟨h1, h2⟩ := hs1
    have hat1 : at_int s1.m_interests s1.m_interest_free_list
        = some ⟨slot.last_seen_version, fl⟩ := by
      rw [h1, h2]
      exact at_int_set_self _ hat
    unfold register_interest
    have hne : s1.m_interest_free_list ≠ -1 := by omega
    rw [if_pos hne]
    rw [h2] at hat1
    simp only [h2, hat1]
    exact ⟨_, rfl⟩

/-- C20.  In every state reached from a fresh registry by calls that return without a
fault, `unregister_interest` being applied to ids in use only: the free list starting at
`m_interest_free_list` is acyclic, ends in `-1` and holds exactly the slots that are not
in use; `register_interest` returns, and the id it returns is not in use in that state; and
a `register_interest` that follows `unregister_interest(id)` returns `id`. -/
theorem registration_ids_never_alias {s : WriteLogRegistry} (h : SlotsReachable s) :
    FreeListOk s
      ∧ (∃ s1 id, register_interest s = .ok (s1, id)
          ∧ ∀ x, at_int s.m_interests id = some x → x.next_free_entry ≠ -2)
      ∧ (∀ (id : Int) (slot : Interest) (s1 : WriteLogRegistry),
          at_int s.m_interests id = some slot → slot.next_free_entry = -2 →
          unregister_interest s id = .ok s1 → ∃ s2, register_interest s1 = .ok (s2, id)) := by
  have hok := slots_reachable_free_list_ok h
  refine ⟨hok, ?_, fun id _ s1 _ _ hu => register_after_unregister hu⟩
  obtain ⟨cs, A, O, ints, fl, lz⟩ := s
  obtain ⟨l, hchain, _, hmem⟩ := hok
  simp only [next_links] at hchain hmem
  unfold register_interest
  simp only
  cases hchain with
  | done =>
    rw [if_neg (by simp)]
    refine ⟨_, _, rfl, ?_⟩
    intro x hx
    have := (at_int_nonneg hx).2
    simp at this
  | @step j next l1 hget hrest =>
    have hne : (j : Int) ≠ -1 := by omega
    rw [if_pos hne]
    rw [List.getElem?_map] at hget
    cases hj : ints[j]? with
    | none => rw [hj] at hget; simp at hget
    | some head =>
      have hat : at_int ints (j : Int) = some head := by
        unfold at_int
        rw [if_pos (Int.ofNat_nonneg _), Int.toNat_ofNat]
        exact hj
      rw [hat]
      refine ⟨_, _, rfl, ?_⟩
      intro x hx
      rw [hat] at hx
      cases hx
      rw [hj] at hget
      have hnext : head.next_free_entry = next := by simpa using hget
      have := (hmem j next (by rw [List.getElem?_map, hj]; simp [hnext])).mp
        (List.mem_cons_self _ _)
      rw [hnext]
      exact this

/-- Witness of C20: two readers register and the first one unregisters. -/
theorem registration_ids_never_alias_witness :
    SlotsReachable (.mk [] 0 0 [⟨0, -1⟩, ⟨0, -2⟩] 0 1)
      ∧ FreeListOk (.mk [] 0 0 [⟨0, -1⟩, ⟨0, -2⟩] 0 1)
      ∧ (∃ s1 id, register_interest (.mk [] 0 0 [⟨0, -1⟩, ⟨0, -2⟩] 0 1) = .ok (s1, id)
          ∧ ∀ x, at_int (WriteLogRegistry.mk [] 0 0 [⟨0, -1⟩, ⟨0, -2⟩] 0 1).m_interests id
              = some x → x.next_free_entry ≠ -2)
      ∧ (∀ (id : Int) (slot : Interest) (s1 : WriteLogRegistry),
          at_int (WriteLogRegistry.mk [] 0 0 [⟨0, -1⟩, ⟨0, -2⟩] 0 1).m_interests id
            = some slot → slot.next_free_entry = -2 →
          unregister_interest (.mk [] 0 0 [⟨0, -1⟩, ⟨0, -2⟩] 0 1) id = .ok s1 →
          ∃ s2, register_interest s1 = .ok (s2, id)) :=
  have hr : SlotsReachable (.mk [] 0 0 [⟨0, -1⟩, ⟨0, -2⟩] 0 1) :=
    SlotsReachable.unregister
      (SlotsReachable.register
        (SlotsReachable.register SlotsReachable.init
          (show register_interest .init = .ok (.mk [] 0 0 [⟨0, -2⟩] (-1) 0, 0) by decide))
        (show register_interest (.mk [] 0 0 [⟨0, -2⟩] (-1) 0)
          = .ok (.mk [] 0 0 [⟨0, -2⟩, ⟨0, -2⟩] (-1) 1, 1) by decide))
      (show at_int (WriteLogRegistry.mk [] 0 0 [⟨0, -2⟩, ⟨0, -2⟩] (-1) 1).m_interests 0
        = some ⟨0, -2⟩ by decide)
      (by decide)
      (show unregister_interest (.mk [] 0 0 [⟨0, -2⟩, ⟨0, -2⟩] (-1) 1) 0
        = .ok (.mk [] 0 0 [⟨0, -1⟩, ⟨0, -2⟩] 0 1) by decide)
  ⟨hr, registration_ids_never_alias hr⟩

/-! ## `register_interest` -/

/-- C11 (amended).  In every state whose free-list head is `-1` or the index of an
existing slot, `register_interest()` returns an id whose slot afterwards has
`last_seen_version == 0` and `next_free_entry == -2`; `m_laziest_reader` is that id; the
id is the head of the free list if the list was not empty, and then the new head is the
link of that slot and no slot is added, otherwise it is the index of the one appended
slot; the commit array, the version window and every other slot are unchanged. -/
theorem register_interest_post (s : WriteLogRegistry)
    (hfl : s.m_interest_free_list = -1
      ∨ ∃ head, at_int s.m_interests s.m_interest_free_list = some head) :
    ∃ s1 id, register_interest s = .ok (s1, id)
      ∧ at_int s1.m_interests id = some ⟨0, -2⟩
      ∧ s1.m_laziest_reader = id
      ∧ (s.m_interest_free_list ≠ -1 → id = s.m_interest_free_list
          ∧ s1.m_interests.length = s.m_interests.length
          ∧ ∀ head, at_int s.m_interests s.m_interest_free_list = some head →
              s1.m_interest_free_list = head.next_free_entry)
      ∧ (s.m_interest_free_list = -1 → id = s.m_interests.length
          ∧ s1.m_interests.length = s.m_interests.length + 1
          ∧ s1.m_interest_free_list = -1)
      ∧ s1.m_commits = s.m_commits ∧ s1.m_array_start = s.m_array_start
      ∧ s1.m_oldest_version = s.m_oldest_version
      ∧ ∀ j : Nat, (j : Int) ≠ id → s1.m_interests[j]? = s.m_interests[j]? := by
  obtain ⟨cs, A, O, ints, fl, lz⟩ := s
  simp only at hfl
  unfold register_interest
  simp only
  by_cases h1 : fl = -1
  · rw [if_neg (by simpa using h1)]
    refine ⟨_, _, rfl, ?_, rfl, fun hc => absurd h1 hc, fun _ => ⟨?_, by simp, h1⟩,
      rfl, rfl, rfl, ?_⟩
    · have := at_int_length_append ints [] (⟨0, -2⟩ : Interest)
      simpa using this
    · simp
    · intro j hj
      have hj : (j : Int) ≠ ((ints.length + 1 : Nat) : Int) - 1 := hj
      by_cases hjl : j < ints.length
      · exact List.getElem?_append_left hjl
      · rw [List.getElem?_eq_none (by simp; omega), List.getElem?_eq_none (by omega)]
  · rcases hfl with hfl | ⟨head, hat⟩
    · exact absurd hfl h1
    · rw [if_pos (by simpa using h1), hat]
      obtain ⟨h0, hlt⟩ := at_int_nonneg hat
      refine ⟨_, _, rfl, at_int_set_self _ hat, rfl, fun _ => ⟨rfl, by simp, ?_⟩,
        fun hc => absurd hc h1, rfl, rfl, rfl, ?_⟩
      · intro head1 hat1
        cases hat1
        rfl
      · intro j hj
        apply List.getElem?_set_ne
        intro hc
        apply hj
        rw [← hc]
        exact Int.toNat_of_nonneg h0

/-- Witness of C11: a table of two slots whose free list holds slot 0. -/
theorem register_interest_post_witness :
    ((WriteLogRegistry.mk [] 0 0 [⟨5, -1⟩, ⟨3, -2⟩] 0 1).m_interest_free_list = -1
        ∨ ∃ head, at_int (WriteLogRegistry.mk [] 0 0 [⟨5, -1⟩, ⟨3, -2⟩] 0 1).m_interests
            (WriteLogRegistry.mk [] 0 0 [⟨5, -1⟩, ⟨3, -2⟩] 0 1).m_interest_free_list
            = some head)
      ∧ register_interest (.mk [] 0 0 [⟨5, -1⟩, ⟨3, -2⟩] 0 1)
          = .ok (.mk [] 0 0 [⟨0, -2⟩, ⟨3, -2⟩] (-1) 0, 0)
      ∧ ∃ s1 id, register_interest (.mk [] 0 0 [⟨5, -1⟩, ⟨3, -2⟩] 0 1) = .ok (s1, id)
          ∧ at_int s1.m_interests id = some ⟨0, -2⟩ ∧ s1.m_laziest_reader = id :=
  have h := register_interest_post (.mk [] 0 0 [⟨5, -1⟩, ⟨3, -2⟩] 0 1)
    (Or.inr ⟨⟨5, -1⟩, by decide⟩)
  ⟨Or.inr ⟨⟨5, -1⟩, by decide⟩, by decide,
    h.elim fun s1 h1 => h1.elim fun id h2 => ⟨s1, id, h2.1, h2.2.1, h2.2.2.1⟩⟩

/-- C11 (counterexample).  A slot is unregistered twice and two registrations follow: the
free-list head ends up as `-2`, which is neither the terminator nor a slot, and the next
`register_interest()` indexes `m_interests[-2]` instead of returning an id. -/
theorem register_interest_on_broken_free_list :
    run .init [.register, .unregister 0, .unregister 0, .register, .register]
        = .ok (.mk [] 0 0 [⟨0, -2⟩] (-2) 0)
      ∧ register_interest (.mk [] 0 0 [⟨0, -2⟩] (-2) 0) = .error .out_of_bounds := by
  decide

/-! ## Submissions in and out of order -/

theorem newest_version_of_window {s : WriteLogRegistry} {u : Nat} (hw : Window s u)
    (hne : s.m_oldest_version ≠ 0) (hfull : s.m_oldest_version = s.m_array_start) :
    newest_version s = u := by
  obtain ⟨hc, h1, _, _, hlast⟩ := hw.window hne
  have hlen : 0 < s.m_commits.length := List.length_pos.mpr hc
  have hs := hw.start_lt
  have hl := hw.last_lt
  rw [newest_version, to_version, to_index, hfull]
  simp only [wadd, wsub, U64] at *
  omega

theorem is_interesting_pos {s : WriteLogRegistry} {version : Nat}
    (hi : is_interesting s version = .ok true) : 1 ≤ version := by
  obtain ⟨_, x, _, hx⟩ := is_interesting_ok_true hi
  omega

theorem add_commit_out_of_order {s : WriteLogRegistry} {u w : Nat} (data : Option Buffer)
    (sz : Nat) (hr : Reachable s u) (hne : s.m_oldest_version ≠ 0)
    (hfull : s.m_oldest_version = s.m_array_start) (hi : is_interesting s w = .ok true)
    (hw : w < U64) (hgap : w ≠ u + 1) :
    add_commit s w data sz = .error .assertion := by
  have hwin := (reachable_inv hr).toWindow
  have hnew := newest_version_of_window hwin hne hfull
  have hpos := is_interesting_pos hi
  have hl := hwin.last_lt
  refine (add_commit_assertion_guard s w data sz).mpr ⟨hi, hne, ?_⟩
  rw [hnew]
  simp only [wadd, U64] at *
  omega

theorem add_commit_in_order {s : WriteLogRegistry} {u : Nat} (data : Option Buffer)
    (sz : Nat) (hr : Reachable s u) (hne : s.m_oldest_version ≠ 0)
    (hfull : s.m_oldest_version = s.m_array_start)
    (hi : is_interesting s (wadd u 1) = .ok true) :
    add_commit s (wadd u 1) data sz = .ok { s with m_commits := s.m_commits ++ [⟨sz, data⟩] }
      ∧ wadd u 1 = u + 1 := by
  have hwin := (reachable_inv hr).toWindow
  have hnew := newest_version_of_window hwin hne hfull
  have hpos := is_interesting_pos hi
  have hl := hwin.last_lt
  have hcomm : wadd u 1 = wadd 1 u := by
    simp only [wadd, Nat.add_comm]
  constructor
  · unfold add_commit
    rw [hi]
    simp [TIGHTDB_ASSERT, hne, hnew, hcomm]
  · simp only [wadd, U64] at *
    omega

/-- C7 (amended).  In a state reached from a fresh registry by calls that return, the
versions having been submitted without a gap up to `u`, in which the store is not empty,
the array has no freed prefix (`m_oldest_version == m_array_start`) and the 64-bit
version `w` is interesting to the laziest reader, `add_commit(w, ..)` with `w != u + 1`
fails the ordering assertion; this is what happens to version 4 after a reader has
registered and versions 1 and 2 have been submitted.  A version that is not interesting is
dropped without a fault whatever its number, and an empty store retains any interesting
version. -/
theorem out_of_order_commit_detected :
    (∀ (s : WriteLogRegistry) (u w : Nat) (data : Option Buffer) (sz : Nat),
        Reachable s u → s.m_oldest_version ≠ 0 → s.m_oldest_version = s.m_array_start →
        is_interesting s w = .ok true → w < U64 → w ≠ u + 1 →
        add_commit s w data sz = .error .assertion)
      ∧ run .init [.register, .commit 1 (some [1]) 1, .commit 2 (some [2]) 1,
          .commit 4 (some [4]) 1] = .error .assertion
      ∧ (∀ (s : WriteLogRegistry) (w : Nat) (data : Option Buffer) (sz : Nat),
          is_interesting s w = .ok false → add_commit s w data sz = .ok s)
      ∧ (∀ (s : WriteLogRegistry) (w : Nat) (data : Option Buffer) (sz : Nat),
          is_interesting s w = .ok true → s.m_oldest_version = 0 →
          add_commit s w data sz
            = .ok { s with
                m_array_start := w
                m_oldest_version := w
                m_commits := s.m_commits ++ [⟨sz, data⟩] }) :=
  ⟨fun _ _ _ data sz hr hne hfull hi hw hgap =>
      add_commit_out_of_order data sz hr hne hfull hi hw hgap,
    by decide,
    fun _ _ data sz hi => add_commit_not_interesting data sz hi,
    fun _ _ data sz hi h0 => add_commit_into_empty data sz hi h0⟩

/-- Witness of C7: a reader has registered and versions 1 and 2 are retained; a duplicate
of version 2 and the gap to version 4 both fail the assertion. -/
theorem out_of_order_commit_detected_witness :
    Reachable (.mk [⟨1, some [1]⟩, ⟨1, some [2]⟩] 1 1 [⟨0, -2⟩] (-1) 0) 2
      ∧ is_interesting (.mk [⟨1, some [1]⟩, ⟨1, some [2]⟩] 1 1 [⟨0, -2⟩] (-1) 0) 4 = .ok true
      ∧ add_commit (.mk [⟨1, some [1]⟩, ⟨1, some [2]⟩] 1 1 [⟨0, -2⟩] (-1) 0) 4 (some [4]) 1
          = .error .assertion
      ∧ add_commit (.mk [⟨1, some [1]⟩, ⟨1, some [2]⟩] 1 1 [⟨0, -2⟩] (-1) 0) 2 (some [2]) 1
          = .error .assertion :=
  have hr : Reachable (.mk [⟨1, some [1]⟩, ⟨1, some [2]⟩] 1 1 [⟨0, -2⟩] (-1) 0) 2 :=
    Reachable.commit
      (Reachable.commit
        (Reachable.register Reachable.init
          (show register_interest .init = .ok (.mk [] 0 0 [⟨0, -2⟩] (-1) 0, 0) by decide))
        (by decide) (by decide) (Or.inl rfl)
        (show add_commit (.mk [] 0 0 [⟨0, -2⟩] (-1) 0) 1 (some [1]) 1
          = .ok (.mk [⟨1, some [1]⟩] 1 1 [⟨0, -2⟩] (-1) 0) by decide))
      (by decide) (by decide) (Or.inr rfl)
      (show add_commit (.mk [⟨1, some [1]⟩] 1 1 [⟨0, -2⟩] (-1) 0) 2 (some [2]) 1
        = .ok (.mk [⟨1, some [1]⟩, ⟨1, some [2]⟩] 1 1 [⟨0, -2⟩] (-1) 0) by decide)
  ⟨hr, by decide,
    out_of_order_commit_detected.1 _ 2 4 (some [4]) 1 hr (by decide) (by decide) (by decide)
      (by decide) (by decide),
    out_of_order_commit_detected.1 _ 2 2 (some [2]) 1 hr (by decide) (by decide) (by decide)
      (by decide) (by decide)⟩

/-! ## The directory of stores -/

theorem map_find_assign_self (m : List (String × Nat)) (key : String) (value : Nat) :
    map_find (map_assign m key value) key = some value := by
  induction m with
  | nil => simp [map_assign, map_find]
  | cons hd rest ih =>
    obtain ⟨k, second⟩ := hd
    by_cases hk : k = key
    · simp [map_assign, map_find, hk]
    · simp [map_assign, map_find, hk, ih]

theorem map_find_assign_ne (m : List (String × Nat)) (key q : String) (value : Nat)
    (hq : q ≠ key) : map_find (map_assign m key value) q = map_find m q := by
  induction m with
  | nil =>
    have : ¬ key = q := fun h => hq h.symm
    simp [map_assign, map_find, this]
  | cons hd rest ih =>
    obtain ⟨k, second⟩ := hd
    by_cases hk : k = key
    · have : ¬ key = q := fun h => hq h.symm
      simp [map_assign, map_find, hk, this]
    · by_cases hkq : k = q
      · subst hkq
        simp [map_assign, map_find, hk]
      · simp [map_assign, map_find, hk, hkq, ih]

/-- C14.  `get(p)` returns the pointer already mapped to `p` and changes neither the
directory nor any store if `p` is mapped; otherwise it returns a pointer to a store that
did not exist before, which is in its initial state (no commits, no reader slots, no
laziest reader), maps `p` to it, and leaves every other mapping and every existing store
unchanged.  A second `get(p)` returns the same pointer and changes nothing, and `get(p)`
after `add(p, registry)` returns `registry`. -/
theorem get_is_get_or_create (r : RegistryRegistry) (heap : List WriteLogRegistry)
    (p : String) :
    (∀ second, map_find r.m_registries p = some second → r.get heap p = (second, r, heap))
      ∧ (map_find r.m_registries p = none →
          (r.get heap p).1 = heap.length
          ∧ (r.get heap p).2.2 = heap ++ [WriteLogRegistry.init]
          ∧ (r.get heap p).2.2[(r.get heap p).1]? = some WriteLogRegistry.init
          ∧ WriteLogRegistry.init.m_commits = [] ∧ WriteLogRegistry.init.m_interests = []
          ∧ WriteLogRegistry.init.m_laziest_reader = -1
          ∧ map_find (r.get heap p).2.1.m_registries p = some heap.length
          ∧ ∀ q, q ≠ p →
              map_find (r.get heap p).2.1.m_registries q = map_find r.m_registries q)
      ∧ (r.get heap p).2.1.get (r.get heap p).2.2 p
          = ((r.get heap p).1, (r.get heap p).2.1, (r.get heap p).2.2)
      ∧ ∀ registry, (r.add p registry).get heap p = (registry, r.add p registry, heap) := by
  refine ⟨?_, ?_, ?_, ?_⟩
  · intro second h
    simp [RegistryRegistry.get, h]
  · intro h
    simp [RegistryRegistry.get, h, map_find_assign_self, WriteLogRegistry.init]
    intro q hq
    exact map_find_assign_ne _ _ _ _ hq
  · cases h : map_find r.m_registries p with
    | some second => simp [RegistryRegistry.get, h]
    | none => simp [RegistryRegistry.get, h, map_find_assign_self]
  · intro registry
    simp [RegistryRegistry.get, RegistryRegistry.add, map_find_assign_self]

/-- Witness of C14: a directory that maps "a"; `get("b")` creates the store 1, a second
`get("b")` returns it again, and `get("a")` returns the store 0. -/
theorem get_is_get_or_create_witness :
    (RegistryRegistry.get ⟨[("a", 0)]⟩ [WriteLogRegistry.init] "b"
        = (1, ⟨[("a", 0), ("b", 1)]⟩, [.init, .init])
      ∧ RegistryRegistry.get ⟨[("a", 0), ("b", 1)]⟩ [.init, .init] "b"
        = (1, ⟨[("a", 0), ("b", 1)]⟩, [.init, .init])
      ∧ RegistryRegistry.get ⟨[("a", 0), ("b", 1)]⟩ [.init, .init] "a"
        = (0, ⟨[("a", 0), ("b", 1)]⟩, [.init, .init]))
    ∧ ∀ registry, ((RegistryRegistry.mk [("a", 0)]).add "b" registry).get
        [WriteLogRegistry.init] "b"
          = (registry, (RegistryRegistry.mk [("a", 0)]).add "b" registry,
              [WriteLogRegistry.init]) :=
  ⟨by decide, (get_is_get_or_create ⟨[("a", 0)]⟩ [WriteLogRegistry.init] "b").2.2.2⟩

/-! ## The producer -/

theorem size_eq_length (b : util_Buffer) : b.size = (b.m_data.getD []).length := by
  obtain ⟨d⟩ := b
  cases d <;> rfl

theorem reserve_extra_spec (b : util_Buffer) (used extra : Nat) (hused : used ≤ b.size) :
    used + extra ≤ (b.reserve_extra used extra).size
      ∧ ((b.reserve_extra used extra).m_data.getD []).take used
          = (b.m_data.getD []).take used := by
  unfold util_Buffer.reserve_extra
  simp only
  by_cases h : used + extra ≤ b.size
  · rw [if_pos h]
    exact ⟨h, rfl⟩
  · rw [if_neg h]
    rw [size_eq_length] at hused h
    have hlen : ((b.m_data.getD []).take used).length = used := by
      rw [List.length_take]
      omega
    constructor
    · rw [size_eq_length]
      simp only [Option.getD_some, List.length_take, List.length_append,
        List.length_replicate, size_eq_length]
      omega
    · simp only [Option.getD_some]
      rw [List.take_take]
      have hmin : min used (max ((b.m_data.getD []).length * 3 / 2) (used + extra)) = used := by
        omega
      rw [size_eq_length, hmin]
      rw [List.take_append_of_le_length (by omega)]
      rw [List.take_take, Nat.min_self]

theorem append_step (c : WriteLogCollector) (acc b : List Nat)
    (hfb : c.m_transact_log_free_begin = acc.length)
    (hsize : acc.length ≤ c.m_transact_log_buffer.size)
    (hacc : (c.m_transact_log_buffer.m_data.getD []).take acc.length = acc) :
    ∃ c1, do_transact_log_append c b = .ok c1
      ∧ c1.m_database_name = c.m_database_name
      ∧ c1.m_transact_log_free_begin = (acc ++ b).length
      ∧ (acc ++ b).length ≤ c1.m_transact_log_buffer.size
      ∧ (c1.m_transact_log_buffer.m_data.getD []).take (acc ++ b).length = acc ++ b := by
  obtain ⟨hcap, hkeep⟩ :=
    reserve_extra_spec c.m_transact_log_buffer acc.length b.length hsize
  unfold do_transact_log_append transact_log_reserve std_copy
  simp only [hfb, Nat.zero_add]
  generalize c.m_transact_log_buffer.reserve_extra acc.length b.length = buf at hcap hkeep
  rw [hacc] at hkeep
  obtain ⟨d⟩ := buf
  cases d with
  | none =>
    simp only [util_Buffer.size] at hcap
    have hb : b = [] := List.length_eq_zero.mp (by omega)
    have ha : acc = [] := List.length_eq_zero.mp (by omega)
    subst hb ha
    simp [util_Buffer.size]
  | some d =>
    simp only [util_Buffer.size] at hcap
    simp only [Option.getD_some] at hkeep
    simp only [if_pos hcap]
    refine ⟨_, rfl, rfl, ?_, ?_, ?_⟩
    · simp [List.length_append]
    · simp only [util_Buffer.size, List.length_append, List.length_take, List.length_drop]
      omega
    · simp only [Option.getD_some, hkeep, List.length_append]
      rw [← List.length_append]
      exact List.take_left _ _

theorem append_all_spec (bs : List (List Nat)) :
    ∀ (c : WriteLogCollector) (acc : List Nat),
      c.m_transact_log_free_begin = acc.length →
      acc.length ≤ c.m_transact_log_buffer.size →
      (c.m_transact_log_buffer.m_data.getD []).take acc.length = acc →
      ∃ c1, append_all c bs = .ok c1
        ∧ c1.m_database_name = c.m_database_name
        ∧ c1.m_transact_log_free_begin = (acc ++ bs.flatten).length
        ∧ (c1.m_transact_log_buffer.m_data.getD []).take (acc ++ bs.flatten).length
            = acc ++ bs.flatten := by
  induction bs with
  | nil =>
    intro c acc hfb _ hacc
    refine ⟨c, rfl, rfl, ?_, ?_⟩
    · simpa using hfb
    · simpa using hacc
  | cons b bs ih =>
    intro c acc hfb hsize hacc
    obtain ⟨c1, h1, hn1, hfb1, hsize1, hacc1⟩ := append_step c acc b hfb hsize hacc
    obtain ⟨c2, h2, hn2, hfb2, hacc2⟩ := ih c1 (acc ++ b) hfb1 hsize1 hacc1
    refine ⟨c2, ?_, hn2.trans hn1, ?_, ?_⟩
    · simp only [append_all, h1]
      exact h2
    · simpa [List.append_assoc] using hfb2
    · simpa [List.append_assoc] using hacc2

/-- C13 (amended).  From every collector state, for every `orig_version` and every list
of byte strings, `do_begin_write_transact` and the appends in order return, and
`do_commit_write_transact(orig_version)` then makes one call
`add_commit(orig_version + 1, data, size)` on the bound store, where `orig_version + 1` is
the 64-bit sum, `size` is the sum of the lengths of the byte strings and the first `size`
bytes of `data` are their concatenation.  The outcome is that of this call: when it
returns, the commit returns `orig_version + 1` and leaves the collector without storage;
when it fails, so does the commit.  The call returns when no reader is interested in the
version, when the store is empty, and when the store, reached by calls that return with
gap-free submissions up to `orig_version`, is not empty and has no freed prefix. -/
theorem producer_buffer_transfer (c : WriteLogCollector) (reg : WriteLogRegistry)
    (orig_version : Nat) (bs : List (List Nat)) :
    ∃ (c1 : WriteLogCollector) (data : Option Buffer),
      append_all (do_begin_write_transact c) bs = .ok c1
        ∧ data = c1.m_transact_log_buffer.m_data
        ∧ (data.getD []).take (bs.map List.length).sum = bs.flatten
        ∧ write_transaction c reg bs orig_version
            = (match add_commit reg (wadd orig_version 1) data (bs.map List.length).sum with
              | .error e => .error e
              | .ok reg1 =>
                .ok (⟨c.m_database_name, ⟨none⟩, (bs.map List.length).sum,
                  c1.m_transact_log_free_end⟩, reg1, wadd orig_version 1))
        ∧ (is_interesting reg (wadd orig_version 1) = .ok false →
            write_transaction c reg bs orig_version
              = .ok (⟨c.m_database_name, ⟨none⟩, (bs.map List.length).sum,
                  c1.m_transact_log_free_end⟩, reg, wadd orig_version 1))
        ∧ (is_interesting reg (wadd orig_version 1) = .ok true → reg.m_oldest_version = 0 →
            write_transaction c reg bs orig_version
              = .ok (⟨c.m_database_name, ⟨none⟩, (bs.map List.length).sum,
                  c1.m_transact_log_free_end⟩,
                  { reg with
                    m_array_start := wadd orig_version 1
                    m_oldest_version := wadd orig_version 1
                    m_commits := reg.m_commits ++ [⟨(bs.map List.length).sum, data⟩] },
                  wadd orig_version 1))
        ∧ (Reachable reg orig_version → reg.m_oldest_version ≠ 0 →
            reg.m_oldest_version = reg.m_array_start →
            is_interesting reg (wadd orig_version 1) = .ok true →
            wadd orig_version 1 = orig_version + 1
              ∧ write_transaction c reg bs orig_version
                = .ok (⟨c.m_database_name, ⟨none⟩, (bs.map List.length).sum,
                    c1.m_transact_log_free_end⟩,
                    { reg with
                      m_commits := reg.m_commits ++ [⟨(bs.map List.length).sum, data⟩] },
                    wadd orig_version 1)) := by
  obtain ⟨c1, h1, hn, hfb, hacc⟩ :=
    append_all_spec bs (do_begin_write_transact c) [] rfl (Nat.zero_le _) rfl
  simp only [List.nil_append, List.length_flatten] at hfb hacc
  have heq : write_transaction c reg bs orig_version
      = (match add_commit reg (wadd orig_version 1) c1.m_transact_log_buffer.m_data
            (bs.map List.length).sum with
        | .error e => .error e
        | .ok reg1 =>
          .ok (⟨c.m_database_name, ⟨none⟩, (bs.map List.length).sum,
            c1.m_transact_log_free_end⟩, reg1, wadd orig_version 1)) := by
    simp only [write_transaction, h1, do_commit_write_transact, util_Buffer.release, hfb]
    cases add_commit reg (wadd orig_version 1) c1.m_transact_log_buffer.m_data
        (bs.map List.length).sum with
    | error e => rfl
    | ok reg1 =>
      simp only
      rw [← hfb]
      have : c1.m_database_name = c.m_database_name := hn
      rw [← this]
  refine ⟨c1, _, h1, rfl, hacc, heq, ?_, ?_, ?_⟩
  · intro hi
    rw [heq, add_commit_not_interesting _ _ hi]
  · intro hi h0
    rw [heq, add_commit_into_empty _ _ hi h0]
  · intro hr hne hfull hi
    obtain ⟨hadd, hv⟩ := add_commit_in_order c1.m_transact_log_buffer.m_data
      (bs.map List.length).sum hr hne hfull hi
    exact ⟨hv, by rw [heq, hadd]⟩

/-- Witness of C13, the example of the specification: with one reader registered, begin,
append "abc", append "de", commit(7) retains version 8 with the five bytes "abcde"; the same
holds when the buffer still holds six bytes of a transaction that was rolled back; and
commit(2) on a store that holds versions 1 and 2 retains version 3. -/
theorem producer_buffer_transfer_witness :
    (write_transaction ⟨"db", ⟨none⟩, 0, 0⟩ (.mk [] 0 0 [⟨0, -2⟩] (-1) 0)
        [[97, 98, 99], [100, 101]] 7
      = .ok (⟨"db", ⟨none⟩, 5, 5⟩,
          .mk [⟨5, some [97, 98, 99, 100, 101]⟩] 8 8 [⟨0, -2⟩] (-1) 0, 8)
    ∧ get_commit_entries (.mk [⟨5, some [97, 98, 99, 100, 101]⟩] 8 8 [⟨0, -2⟩] (-1) 0) 7 8
      = .ok [(some [97, 98, 99, 100, 101], 5)]
    ∧ do_transact_log_append (do_begin_write_transact ⟨"db", ⟨none⟩, 0, 0⟩)
        [113, 119, 101, 114, 116, 121]
      = .ok ⟨"db", ⟨some [113, 119, 101, 114, 116, 121]⟩, 6, 6⟩
    ∧ write_transaction
        (do_rollback_write_transact ⟨"db", ⟨some [113, 119, 101, 114, 116, 121]⟩, 6, 6⟩)
        (.mk [] 0 0 [⟨0, -2⟩] (-1) 0) [[97, 98, 99], [100, 101]] 7
      = .ok (⟨"db", ⟨none⟩, 5, 6⟩,
          .mk [⟨5, some [97, 98, 99, 100, 101, 121]⟩] 8 8 [⟨0, -2⟩] (-1) 0, 8)
    ∧ write_transaction ⟨"db", ⟨none⟩, 0, 0⟩
        (.mk [⟨1, some [1]⟩, ⟨1, some [2]⟩] 1 1 [⟨0, -2⟩] (-1) 0) [[97, 98, 99], [100, 101]] 2
      = .ok (⟨"db", ⟨none⟩, 5, 5⟩,
          .mk [⟨1, some [1]⟩, ⟨1, some [2]⟩, ⟨5, some [97, 98, 99, 100, 101]⟩] 1 1
            [⟨0, -2⟩] (-1) 0, 3))
    ∧ ∃ data : Option Buffer,
        (data.getD []).take ([[97, 98, 99], [100, 101]].map List.length).sum
          = [[97, 98, 99], [100, 101]].flatten :=
  ⟨by decide,
    (producer_buffer_transfer ⟨"db", ⟨some [113, 119, 101, 114, 116, 121]⟩, 6, 6⟩
      (.mk [] 0 0 [⟨0, -2⟩] (-1) 0) 7 [[97, 98, 99], [100, 101]]).elim
      fun _ h => h.elim fun data hd => ⟨data, hd.2.2.1⟩⟩

/-- C13 (counterexample).  A reader has registered and the store holds versions 1 and 2.
Begin, append "abc", append "de" and `do_commit_write_transact(7)` do not return 8: the
call `add_commit(8, ..)` fails the ordering assertion. -/
theorem commit_out_of_order_returns_nothing :
    run .init [.register, .commit 1 (some [1]) 1, .commit 2 (some [2]) 1]
        = .ok (.mk [⟨1, some [1]⟩, ⟨1, some [2]⟩] 1 1 [⟨0, -2⟩] (-1) 0)
      ∧ write_transaction ⟨"db", ⟨none⟩, 0, 0⟩
          (.mk [⟨1, some [1]⟩, ⟨1, some [2]⟩] 1 1 [⟨0, -2⟩] (-1) 0)
          [[97, 98, 99], [100, 101]] 7 = .error .assertion := by
  decide

end tightdb
